import Mathlib

/-!
# Aegis data-intelligence backend — shallow embedding and verification

This file embeds the deterministic core of the Aegis backend
(`aegis/agents/sentinel.py`, `aegis/agents/orchestrator.py`,
`aegis/agents/report_generator.py`, `aegis/api/incidents.py`,
`aegis/utils/sql_parser.py`, `aegis/core/lineage.py`) as executable Lean
definitions and proves properties of the embedded code.

Modelling conventions:
* Timestamps are rational numbers of seconds (`ℚ`); Python `datetime`
  arithmetic `(now - last).total_seconds() / 60` becomes exact rational
  arithmetic.
* The SQLAlchemy session is explicit state: each store is a list kept
  newest-first, so `ORDER BY captured_at DESC LIMIT 1` / `ORDER BY
  created_at DESC LIMIT 1` become `List.find?`, and `db.add` is a prepend.
* `sha256` of the canonical (sorted-keys) JSON of a column list is modelled
  by the column list itself: the canonical JSON string is an injective
  function of the list, and hash collisions are ignored.
* A raised exception in an external call is an `Except.error`; the
  `try/except` blocks of the source become `match` on that value.
* Severities are the strings the source uses, ranked by the
  `severity_rank` dictionaries with their `.get(…, 0)` default.
-/

namespace Aegis

/-- The fields of `MonitoredTableModel` the detection pipeline reads. -/
structure MonitoredTable where
  id : Nat
  schema_name : String
  table_name : String
  freshness_sla_minutes : Option Nat
deriving DecidableEq, Repr

/-- `MonitoredTableModel.fully_qualified_name` (`"schema.name"`). -/
def MonitoredTable.fully_qualified_name (t : MonitoredTable) : String :=
  t.schema_name ++ "." ++ t.table_name

/-- A warehouse column as returned by `connector.fetch_schema`
(`{name, type, nullable, ordinal}`, see the connector capability). -/
structure Column where
  name : String
  type : String
  nullable : Bool
  ordinal : Nat
deriving DecidableEq, Repr

/-- `hashlib.sha256(json.dumps(cols, sort_keys=True).encode()).hexdigest()`,
modelled by the canonical value itself (the sorted-keys JSON string is
injective in the column list; collisions are ignored). -/
def snapshotHash (cols : List Column) : List Column := cols

/-- A row of `schema_snapshots`. -/
structure SchemaSnapshot where
  table_id : Nat
  columns : List Column
  snapshot_hash : List Column
  captured_at : ℚ
deriving DecidableEq, Repr

/-- One entry of the change list produced by `SchemaSentinel._diff_schemas`.
The source builds dicts keyed by `"change"`; `otherChange` stands for any
dict whose `"change"` value is none of the three kinds the differ emits
(`_classify_severity` still accepts it). -/
inductive SchemaChange where
  | column_deleted (column : String) (old : Column)
  | column_added (column : String) (nullable : Bool) (new : Column)
  | type_changed (column : String) (old_type new_type : String)
  | otherChange (change : String)
deriving DecidableEq, Repr

/-- The parsed `detail` blob of an anomaly row: a change list for
`schema_drift`, an object for `freshness_violation`. -/
inductive AnomalyDetail where
  | schemaChanges (changes : List SchemaChange)
  | freshness (last_update : ℚ) (sla_minutes : Nat) (minutes_overdue : ℚ)
deriving DecidableEq, Repr

/-- A row of `anomalies`. `id` is the primary key the store assigns on
flush; the caller of an inspect function passes the fresh key in. -/
structure Anomaly where
  id : Nat
  table_id : Nat
  type : String
  severity : String
  detail : AnomalyDetail
  detected_at : ℚ
deriving DecidableEq, Repr

/-- The slice of the session state the sentinels touch. Both lists are
kept newest-first (`db.add` prepends), so the most recently captured
snapshot of a table is the first hit of `List.find?`. -/
structure SentinelStore where
  snapshots : List SchemaSnapshot
  anomalies : List Anomaly
deriving DecidableEq, Repr

/-- Keys of the Python dict `{c["name"]: c for c in cols}` in insertion
order: first occurrence of each name, in list order. -/
def dictKeys (cols : List Column) : List String :=
  cols.foldl (fun acc c => if c.name ∈ acc then acc else acc ++ [c.name]) []

/-- Value lookup in `{c["name"]: c for c in cols}`: a later column with
the same name overwrites an earlier one. -/
def dictGet (cols : List Column) (n : String) : Option Column :=
  (cols.filter (fun c => c.name = n)).getLast?

/-- Column-name membership, `name in by_name`. -/
def hasName (cols : List Column) (n : String) : Bool :=
  cols.any (fun c => c.name == n)

/-- `SchemaSentinel._diff_schemas`: deleted columns, then added columns,
then type changes, each loop in dict iteration order. The source reads
`type` and `nullable` with `.get`; the connector contract supplies every
field, so the embedded columns carry them totally. -/
def diff_schemas (old new : List Column) : List SchemaChange :=
  let deleted := (dictKeys old).filterMap (fun n =>
    if hasName new n then none
    else (dictGet old n).map (fun c => SchemaChange.column_deleted n c))
  let added := (dictKeys new).filterMap (fun n =>
    if hasName old n then none
    else (dictGet new n).map (fun c => SchemaChange.column_added n c.nullable c))
  let typeChanges := (dictKeys old).filterMap (fun n =>
    match dictGet old n, dictGet new n with
    | some oc, some nc =>
        if oc.type ≠ nc.type then some (SchemaChange.type_changed n oc.type nc.type)
        else none
    | _, _ => none)
  deleted ++ added ++ typeChanges

/-- `severity_rank = {"critical": 4, "high": 3, "medium": 2, "low": 1}`
with the `.get(sev, 0)` default for any other string. -/
def severityRank (s : String) : Nat :=
  if s = "critical" then 4
  else if s = "high" then 3
  else if s = "medium" then 2
  else if s = "low" then 1
  else 0

/-- The per-change severity assigned inside `SchemaSentinel._classify_severity`. -/
def changeSeverity (c : SchemaChange) : String :=
  match c with
  | .column_deleted _ _ => "critical"
  | .type_changed _ _ _ => "critical"
  | .column_added _ nullable _ => if nullable then "low" else "medium"
  | .otherChange _ => "medium"

/-- One iteration of the loop in `SchemaSentinel._classify_severity`:
keep the running maximum unless the current change ranks strictly higher. -/
def classifyStep (max_severity : String) (c : SchemaChange) : String :=
  let sev := changeSeverity c
  if severityRank sev > severityRank max_severity then sev else max_severity

/-- `SchemaSentinel._classify_severity`: fold the change list keeping the
maximal-rank severity, starting from `"low"`. -/
def classify_severity (changes : List SchemaChange) : String :=
  changes.foldl classifyStep "low"

/-- `SchemaSentinel.inspect`. `fetched` is the result of
`connector.fetch_schema` (`error` models a raised exception); `aid` is the
primary key the store would assign to a new anomaly row. Returns the
anomaly (or `none`) together with the post-state. -/
def schemaInspect (table : MonitoredTable) (fetched : Except Unit (List Column))
    (now : ℚ) (aid : Nat) (db : SentinelStore) : Option Anomaly × SentinelStore :=
  match fetched with
  | .error _ => (none, db)
  | .ok current_columns =>
    let current_hash := snapshotHash current_columns
    let last_snapshot := db.snapshots.find? (fun s => s.table_id == table.id)
    let db' : SentinelStore :=
      { db with snapshots := ⟨table.id, current_columns, current_hash, now⟩ :: db.snapshots }
    match last_snapshot with
    | none => (none, db')
    | some last =>
      if last.snapshot_hash = current_hash then (none, db')
      else
        let changes := diff_schemas last.columns current_columns
        let severity := classify_severity changes
        let anomaly : Anomaly :=
          ⟨aid, table.id, "schema_drift", severity, .schemaChanges changes, now⟩
        (some anomaly, { db' with anomalies := anomaly :: db'.anomalies })

/-- `FreshnessSentinel._classify_severity`. -/
def freshnessClassify (minutes_since : ℚ) (sla : Nat) : String :=
  let ratio := minutes_since / (sla : ℚ)
  if ratio > 5 then "critical"
  else if ratio > 2 then "high"
  else "medium"

/-- Python `round(q, 1)`: round to one decimal place. Mathlib's `round`
(ties away from the floor) stands in for float rounding; the two differ
only on exact `.x5` ties, which binary floats do not hit exactly. -/
def round1 (q : ℚ) : ℚ := ((round (10 * q) : ℤ) : ℚ) / 10

/-- `FreshnessSentinel.inspect`. `table.freshness_sla_minutes` of `none`
or `some 0` both fail Python's `if not …` truthiness test; `fetched` is
`connector.fetch_last_update_time` (exception / no timestamp / a
timestamp in seconds). Timezone normalisation is a no-op in the model;
timestamps are already absolute. -/
def freshnessInspect (table : MonitoredTable) (fetched : Except Unit (Option ℚ))
    (now : ℚ) (aid : Nat) (db : SentinelStore) : Option Anomaly × SentinelStore :=
  match table.freshness_sla_minutes with
  | none => (none, db)
  | some s =>
    if s = 0 then (none, db)
    else
      match fetched with
      | .error _ => (none, db)
      | .ok none => (none, db)
      | .ok (some last_update) =>
        let minutes_since := (now - last_update) / 60
        if minutes_since ≤ (s : ℚ) then (none, db)
        else
          let minutes_overdue := minutes_since - (s : ℚ)
          let severity := freshnessClassify minutes_since s
          let anomaly : Anomaly :=
            ⟨aid, table.id, "freshness_violation", severity,
              .freshness last_update s (round1 minutes_overdue), now⟩
          (some anomaly, { db with anomalies := anomaly :: db.anomalies })

/-! ## Diagnosis, remediation and report value objects (`core/models.py`) -/

/-- One entry of `Diagnosis.recommendations`. -/
structure Recommendation where
  action : String
  description : String
  sql : Option String
  priority : Nat
deriving DecidableEq, Repr

/-- The `Diagnosis` value object. -/
structure Diagnosis where
  root_cause : String
  root_cause_table : String
  blast_radius : List String
  severity : String
  confidence : ℚ
  recommendations : List Recommendation
deriving DecidableEq, Repr

/-- One action dict of `Remediation.actions` (`{type, description,
priority, sql?, status}`). -/
structure RemediationAction where
  type : String
  description : String
  priority : Nat
  sql : Option String
  status : String
deriving DecidableEq, Repr

/-- The `Remediation` value object. -/
structure Remediation where
  actions : List RemediationAction
  summary : String
  generated_at : ℚ
deriving DecidableEq, Repr

/-- `RootCauseDetail` of an incident report. -/
structure RootCauseDetail where
  explanation : String
  source_table : String
  confidence : ℚ
deriving DecidableEq, Repr

/-- `BlastRadiusDetail` of an incident report. -/
structure BlastRadiusDetail where
  total_affected : Nat
  affected_tables : List String
deriving DecidableEq, Repr

/-- `RecommendedAction` of an incident report. -/
structure RecommendedAction where
  action : String
  description : String
  priority : Nat
  status : String
deriving DecidableEq, Repr

/-- `TimelineEvent` of an incident report. -/
structure TimelineEvent where
  timestamp : ℚ
  event : String
deriving DecidableEq, Repr

/-- One element of `anomaly_details.changes`: for a schema anomaly the
`detail` JSON is a list of change dicts, for a freshness anomaly a single
object that `_build_anomaly_details` wraps in a one-element list. -/
inductive ChangeItem where
  | schema (c : SchemaChange)
  | freshnessObj (last_update : ℚ) (sla_minutes : Nat) (minutes_overdue : ℚ)
deriving DecidableEq, Repr

/-- `AnomalyDetail` of an incident report (named `…Doc` to avoid clashing
with the anomaly-row `detail` payload above). -/
structure AnomalyDetailDoc where
  type : String
  table : String
  detected_at : ℚ
  changes : List ChangeItem
deriving DecidableEq, Repr

/-- The canonical `IncidentReport` document. -/
structure IncidentReport where
  incident_id : Nat
  title : String
  severity : String
  status : String
  generated_at : ℚ
  summary : String
  anomaly_details : AnomalyDetailDoc
  root_cause : RootCauseDetail
  blast_radius : BlastRadiusDetail
  recommended_actions : List RecommendedAction
  timeline : List TimelineEvent
deriving DecidableEq, Repr

/-- A row of `incidents`. The serialized JSON blobs (`diagnosis`,
`remediation`, `report`, `blast_radius`) are modelled as the structured
values they serialize. -/
structure Incident where
  id : Nat
  anomaly_id : Nat
  status : String
  severity : String
  diagnosis : Option Diagnosis := none
  blast_radius : Option (List String) := none
  remediation : Option Remediation := none
  report : Option IncidentReport := none
  resolved_at : Option ℚ := none
  resolved_by : Option String := none
  dismiss_reason : Option String := none
  created_at : ℚ
  updated_at : ℚ
deriving DecidableEq, Repr

/-! ## Report generator (`agents/report_generator.py`) -/

/-- Python `str.capitalize`-per-word behaviour used by `str.title()`:
first character upper-cased, the rest lower-cased. -/
def pyCapitalize (w : String) : String :=
  match w.data with
  | [] => ""
  | c :: rest => String.mk (c.toUpper :: rest.map Char.toLower)

/-- `anomaly.type.replace("_", " ").title()` for types outside the title
map: replace underscores by spaces and title-case each word. -/
def pyTitle (s : String) : String :=
  String.intercalate " " (((s.splitOn " ").map pyCapitalize))

/-- `_TYPE_TITLES.get(type, type.replace("_", " ").title())`. -/
def typeTitle (t : String) : String :=
  if t = "schema_drift" then "Schema Drift"
  else if t = "freshness_violation" then "Freshness Breach"
  else if t = "freshness_breach" then "Freshness Breach"
  else pyTitle (t.replace "_" " ")

/-- `ReportGenerator._build_anomaly_details`: a list `detail` is used
as-is, anything else is wrapped in a one-element list. -/
def build_anomaly_details (a : Anomaly) (table_name : String) : AnomalyDetailDoc :=
  { type := a.type
    table := table_name
    detected_at := a.detected_at
    changes :=
      match a.detail with
      | .schemaChanges l => l.map ChangeItem.schema
      | .freshness lu sla od => [ChangeItem.freshnessObj lu sla od] }

/-- `ReportGenerator._build_root_cause`. -/
def build_root_cause (diagnosis : Option Diagnosis) (table_name : String) :
    RootCauseDetail :=
  match diagnosis with
  | none => ⟨"Analysis unavailable", table_name, 0⟩
  | some d => ⟨d.root_cause, d.root_cause_table, d.confidence⟩

/-- `ReportGenerator._build_blast_radius`. -/
def build_blast_radius (diagnosis : Option Diagnosis) : BlastRadiusDetail :=
  match diagnosis with
  | none => ⟨0, []⟩
  | some d => ⟨d.blast_radius.length, d.blast_radius⟩

/-- `ReportGenerator._build_actions`. The source reads `priority` and
`status` with `.get` defaults `1` and `"manual"`; the embedded action
dicts carry both fields, so the defaults never fire. -/
def build_actions (remediation : Option Remediation) : List RecommendedAction :=
  match remediation with
  | none => []
  | some r => r.actions.map (fun a => ⟨a.type, a.description, a.priority, a.status⟩)

/-- Python `f"{q:.0%}"`: the confidence as a whole percent. -/
def pctFormat (q : ℚ) : String := toString (round (q * 100) : ℤ) ++ "%"

/-- `ReportGenerator._build_timeline`. -/
def build_timeline (a : Anomaly) (incident : Incident)
    (diagnosis : Option Diagnosis) (remediation : Option Remediation) :
    List TimelineEvent :=
  let type_label := if a.type = "schema_drift" then "Schema Drift"
    else if a.type = "freshness_violation" then "Freshness Breach"
    else if a.type = "freshness_breach" then "Freshness Breach"
    else a.type
  [TimelineEvent.mk a.detected_at
      ("Anomaly detected: " ++ type_label ++ " on " ++ a.type),
   TimelineEvent.mk incident.created_at
      ("Incident created (severity: " ++ incident.severity ++ ")")]
  ++ (match diagnosis with
      | none => []
      | some d =>
        [TimelineEvent.mk incident.created_at
          ("Root cause identified: " ++ d.root_cause ++ " (confidence: "
            ++ pctFormat d.confidence ++ ")")])
  ++ (match remediation with
      | none => []
      | some r =>
        [TimelineEvent.mk r.generated_at
          ("Remediation plan generated: " ++ toString r.actions.length
            ++ " action(s)")])

/-- `ReportGenerator._build_summary`. -/
def build_summary (type_label table_name severity : String)
    (root_cause : RootCauseDetail) (blast_radius : BlastRadiusDetail) : String :=
  let parts := [type_label ++ " detected on " ++ table_name ++ " ("
      ++ severity ++ " severity)."]
  let parts := parts ++
    (if root_cause.confidence > 0 then ["Root cause: " ++ root_cause.explanation ++ "."]
     else ["Root cause analysis unavailable."])
  let parts := parts ++
    (if blast_radius.total_affected > 0 then
      [toString blast_radius.total_affected ++ " downstream table(s) affected."]
     else [])
  String.intercalate " " parts

/-- `ReportGenerator.generate`. -/
def generate (incident : Incident) (a : Anomaly) (table : MonitoredTable)
    (diagnosis : Option Diagnosis) (remediation : Option Remediation)
    (now : ℚ) : IncidentReport :=
  let table_name := table.fully_qualified_name
  let type_label := typeTitle a.type
  let title := type_label ++ " on " ++ table_name
  let anomaly_details := build_anomaly_details a table_name
  let root_cause := build_root_cause diagnosis table_name
  let blast_radius := build_blast_radius diagnosis
  let actions := build_actions remediation
  let timeline := build_timeline a incident diagnosis remediation
  let summary := build_summary type_label table_name incident.severity
      root_cause blast_radius
  { incident_id := incident.id
    title := title
    severity := incident.severity
    status := incident.status
    generated_at := now
    summary := summary
    anomaly_details := anomaly_details
    root_cause := root_cause
    blast_radius := blast_radius
    recommended_actions := actions
    timeline := timeline }

/-! ## Incident endpoints (`api/incidents.py`) -/

/-- The open set of incident statuses. -/
def openSet : List String := ["open", "investigating", "pending_review"]

/-- `approve_incident`: look the incident up by primary key (`error` is
the 404 path), then unconditionally set `status`, `resolved_at`,
`resolved_by`. The list update by primary key models the ORM mutation of
the fetched row. Returns the post-state table and the response row. -/
def approve_incident (incidents : List Incident) (iid : Nat) (now : ℚ) :
    Except Unit (List Incident × Incident) :=
  match incidents.find? (fun i => i.id == iid) with
  | none => .error ()
  | some inc =>
    let inc' := { inc with
      status := "resolved"
      resolved_at := some now
      resolved_by := some "api_user" }
    .ok (incidents.map (fun i => if i.id == iid then inc' else i), inc')

/-- `dismiss_incident`: unconditionally set `status`, `dismiss_reason`
and `resolved_at` (the source does not set `resolved_by` here). -/
def dismiss_incident (incidents : List Incident) (iid : Nat) (reason : String)
    (now : ℚ) : Except Unit (List Incident × Incident) :=
  match incidents.find? (fun i => i.id == iid) with
  | none => .error ()
  | some inc =>
    let inc' := { inc with
      status := "dismissed"
      dismiss_reason := some reason
      resolved_at := some now }
    .ok (incidents.map (fun i => if i.id == iid then inc' else i), inc')

/-! ## Orchestrator (`agents/orchestrator.py`) -/

/-- The slice of the session the orchestrator touches. `incidents` is
kept newest-first (`created_at` descending), so the `ORDER BY … DESC
LIMIT 1` lookup is `List.find?`. -/
structure OrchStore where
  tables : List MonitoredTable
  anomalies : List Anomaly
  incidents : List Incident
deriving DecidableEq, Repr

/-- The join `IncidentModel ⋈ AnomalyModel` on `anomaly_id`. -/
def anomalyOf (st : OrchStore) (inc : Incident) : Option Anomaly :=
  st.anomalies.find? (fun a => a.id == inc.anomaly_id)

/-- The WHERE clause of `Orchestrator._find_open_incident`: same table,
same anomaly type, status in the open set. -/
def incidentMatches (st : OrchStore) (tid : Nat) (atype : String)
    (inc : Incident) : Bool :=
  openSet.contains inc.status &&
    (match anomalyOf st inc with
     | some a => a.table_id == tid && a.type == atype
     | none => false)

/-- `Orchestrator._find_open_incident`: most recently created match. -/
def find_open_incident (st : OrchStore) (tid : Nat) (atype : String) :
    Option Incident :=
  st.incidents.find? (incidentMatches st tid atype)

/-- `Orchestrator._merge_anomaly`: escalate severity when the new anomaly
ranks strictly higher, touch `updated_at`, persist by primary key. -/
def merge_anomaly (st : OrchStore) (inc : Incident) (a : Anomaly) (now : ℚ) :
    Incident × OrchStore :=
  let newSeverity :=
    if severityRank a.severity > severityRank inc.severity then a.severity
    else inc.severity
  let inc' := { inc with severity := newSeverity, updated_at := now }
  (inc', { st with incidents := st.incidents.map (fun i => if i.id == inc.id then inc' else i) })

/-- `Orchestrator.handle_anomaly`. `arch` and `execu` stand for
`Architect.analyze` and `Executor.prepare`: they return `none` where the
source catches an exception. The report step looks the table up by
primary key and calls the generator; a missing table is the caught
`AttributeError` of `generate(None, …)`. `newId` is the primary key the
store assigns to a freshly inserted incident. -/
def handle_anomaly (arch : Anomaly → Option Diagnosis)
    (execu : Anomaly → Diagnosis → Option Remediation)
    (a : Anomaly) (newId : Nat) (now : ℚ) (st : OrchStore) :
    Incident × OrchStore :=
  match find_open_incident st a.table_id a.type with
  | some existing => merge_anomaly st existing a now
  | none =>
    let inc0 : Incident :=
      { id := newId, anomaly_id := a.id, status := "investigating",
        severity := a.severity, created_at := now, updated_at := now }
    let inc1 :=
      match arch a with
      | some d => { inc0 with
          diagnosis := some d, blast_radius := some d.blast_radius,
          severity := d.severity }
      | none => inc0
    let inc2 :=
      match inc1.diagnosis with
      | some d =>
        (match execu a d with
         | some r => { inc1 with remediation := some r }
         | none => inc1)
      | none => inc1
    let inc3 := { inc2 with status := "pending_review" }
    let inc4 :=
      match st.tables.find? (fun t => t.id == a.table_id) with
      | some table =>
        { inc3 with report := some (generate inc3 a table inc3.diagnosis inc3.remediation now) }
      | none => inc3
    let inc5 := { inc4 with updated_at := now }
    (inc5, { st with incidents := inc5 :: st.incidents })

/-- All incidents of the store matching a dedupe key while in the open
set (the relation §4.4 requires to hold at most one element). -/
def openIncidentsFor (st : OrchStore) (tid : Nat) (atype : String) : List Incident :=
  st.incidents.filter (incidentMatches st tid atype)

/-! ## SQL parser (`utils/sql_parser.py`)

`sqlglot` is an external library; the embedding represents the parsed
statements it returns as a generic expression tree and takes the outcome
of `sqlglot.parse` as input (`error` = a raised `ParseError`). -/

/-- The sqlglot node classes the parser dispatches on. A `table` node
carries `catalog`, `db` and `name` (empty string = absent segment, as in
sqlglot); every other node class (`Select`, `From`, `Join`, `Column`,
`Schema`, …) that the parser only traverses is a `plain` node. -/
inductive NodeKind where
  | insert
  | create
  | merge
  | select
  | subquery
  | table (catalog dbname name : String)
  | plain (label : String)
deriving DecidableEq, Repr

/-- A sqlglot expression node: a kind plus its child subtrees. -/
inductive Expr where
  | node (kind : NodeKind) (children : List Expr)
deriving Repr

/-- Tree size, the termination measure of the traversals. -/
def Expr.size : Expr → Nat
  | .node _ cs => 1 + (cs.attach.map (fun x => x.1.size)).sum
decreasing_by
  have h := List.sizeOf_lt_of_mem x.2
  simp only [Expr.node.sizeOf_spec]
  omega

/-- `_table_name`: join the non-empty segments of `[catalog, db, name]`
with dots. -/
def table_name (catalog dbname name : String) : String :=
  String.intercalate "."
    ((if catalog ≠ "" then [catalog] else [])
      ++ (if dbname ≠ "" then [dbname] else []) ++ [name])

/-- Whether a node is a sqlglot `Subquery` (the class
`_compute_confidence` counts on the parent chain). -/
def isSubquery (k : NodeKind) : Bool :=
  match k with
  | .subquery => true
  | _ => false

/-- The contribution of one visited node to the table enumeration:
a `table` node yields its fully-qualified name with the number of
`Subquery` ancestors below the traversal root. -/
def tableEntry (k : NodeKind) (d : Nat) : List (String × Nat) :=
  match k with
  | .table c db n => [(table_name c db n, d)]
  | _ => []

/-- `find_all(exp.Table)` over a queue of subtrees, breadth-first as in
sqlglot's default `bfs=True` walk, returning each table's name paired
with its `Subquery`-ancestor count (the quantity `_compute_confidence`
derives by walking `table.parent` up to the root, the root excluded; the
roots the parser traverses are write statements, never subqueries). -/
def bfsTables : List (Expr × Nat) → List (String × Nat)
  | [] => []
  | (Expr.node k cs, d) :: rest =>
    tableEntry k d ++
      bfsTables (rest ++ cs.map (fun c => (c, if isSubquery k then d + 1 else d)))
termination_by q => (q.map (fun p => p.1.size)).sum
decreasing_by
  have h1 : ∀ dd : Nat,
      ((cs.map (fun c => (c, dd))).map (fun p => p.1.size)).sum = (cs.map Expr.size).sum := by
    intro dd; rw [List.map_map]; rfl
  have h2 : Expr.size (.node k cs) = 1 + (cs.map Expr.size).sum := by
    rw [Expr.size.eq_def]
    show 1 + (cs.attach.map (fun x => x.1.size)).sum = 1 + (cs.map Expr.size).sum
    rw [← List.attach_map_coe cs Expr.size]
  simp only [List.map_append, List.sum_append, List.map_cons, List.sum_cons]
  rw [h1, h2]
  omega

/-- `_extract_target`: for `Insert`, `Create` and `Merge` statements the
first `Table` node of the breadth-first walk; `none` otherwise. -/
def extract_target (stmt : Expr) : Option String :=
  match stmt with
  | .node k _ =>
    match k with
    | .insert => ((bfsTables [(stmt, 0)]).head?).map Prod.fst
    | .create => ((bfsTables [(stmt, 0)]).head?).map Prod.fst
    | .merge => ((bfsTables [(stmt, 0)]).head?).map Prod.fst
    | _ => none

/-- `_compute_confidence` as a function of the `Subquery` nesting depth
of the source reference. -/
def compute_confidence (depth : Nat) : ℚ :=
  if depth = 0 then 1
  else if depth ≤ 2 then 8 / 10
  else 6 / 10

/-- `_extract_sources`: enumerate the tables of the statement in walk
order, skipping the target and previously seen names, pairing each with
its confidence. -/
def extract_sources (stmt : Expr) (target : String) : List (String × ℚ) :=
  ((bfsTables [(stmt, 0)]).foldl
    (fun (acc : List (String × ℚ) × List String) nd =>
      if nd.1 = target ∨ nd.1 ∈ acc.2 then acc
      else (acc.1 ++ [(nd.1, compute_confidence nd.2)], acc.2 ++ [nd.1]))
    ([], [])).1

/-- A `(source, target, confidence)` lineage edge. -/
structure ParsedEdge where
  source : String
  target : String
  confidence : ℚ
deriving DecidableEq, Repr

/-- The body of the `for statement in parsed` loop of
`extract_lineage_edges`: skip `None` entries and statements without a
write target, else append one edge per extracted source. -/
def edgeStep (edges : List ParsedEdge) (ostmt : Option Expr) : List ParsedEdge :=
  match ostmt with
  | none => edges
  | some stmt =>
    match extract_target stmt with
    | none => edges
    | some target =>
      edges ++ (extract_sources stmt target).map (fun sc => ⟨sc.1, target, sc.2⟩)

/-- `extract_lineage_edges`: empty on parse failure, else the statement
loop over the parse result. -/
def extract_lineage_edges (parsed : Except Unit (List (Option Expr))) :
    List ParsedEdge :=
  match parsed with
  | .error _ => []
  | .ok stmts => stmts.foldl edgeStep []

/-! ## Lineage graph traversal (`core/lineage.py`) -/

/-- A row of `lineage_edges`. -/
structure LineageEdge where
  source_table : String
  target_table : String
  relationship_type : String
  query_hash : String
  confidence : ℚ
  first_seen_at : ℚ
  last_seen_at : ℚ
deriving DecidableEq, Repr

/-- The two traversal directions of `LineageGraph._bfs`. -/
inductive Direction where
  | upstream
  | downstream
deriving DecidableEq, Repr

/-- The neighbour reached through an edge. -/
def neighborOf (dir : Direction) (e : LineageEdge) : String :=
  match dir with
  | .downstream => e.target_table
  | .upstream => e.source_table

/-- The per-node edge query of `_bfs`: edges incident to `current` in the
given direction, restricted to `last_seen_at ≥ cutoff` (the recency
filter, `cutoff = now − STALE_DAYS`). -/
def edgeQuery (edges : List LineageEdge) (cutoff : ℚ) (dir : Direction)
    (current : String) : List LineageEdge :=
  match dir with
  | .downstream =>
    edges.filter (fun e => e.source_table == current && decide (cutoff ≤ e.last_seen_at))
  | .upstream =>
    edges.filter (fun e => e.target_table == current && decide (cutoff ≤ e.last_seen_at))

/-- One result entry of `_bfs` (`{table, depth, confidence}`). -/
structure BfsNode where
  table : String
  depth : Nat
  confidence : ℚ
deriving DecidableEq, Repr

/-- The inner `for edge in edges` loop of `_bfs`: emit one result node
per unvisited neighbour, marking it visited as soon as it is reached. -/
def addNeighbors (dir : Direction) (current_depth : Nat) :
    List LineageEdge → List String → List BfsNode × List String
  | [], visited => ([], visited)
  | e :: es, visited =>
    let nb := neighborOf dir e
    if nb ∈ visited then addNeighbors dir current_depth es visited
    else
      let out := addNeighbors dir current_depth es (nb :: visited)
      (⟨nb, current_depth + 1, e.confidence⟩ :: out.1, out.2)

/-- The `while queue` loop of `_bfs`: pop the front entry, skip it at the
depth bound, else visit its unvisited neighbours and enqueue them. -/
def bfsLoop (edges : List LineageEdge) (cutoff : ℚ) (dir : Direction) (depth : Nat) :
    List (String × Nat) → List String → List BfsNode
  | [], _ => []
  | (current, cd) :: rest, visited =>
    if depth ≤ cd then bfsLoop edges cutoff dir depth rest visited
    else
      let out := addNeighbors dir cd (edgeQuery edges cutoff dir current) visited
      out.1 ++ bfsLoop edges cutoff dir depth
        (rest ++ out.1.map (fun n => (n.table, n.depth))) out.2
termination_by q _ => (q.map (fun p => (edges.length + 1) ^ (depth - p.2))).sum
decreasing_by
  · simp only [List.map_cons, List.sum_cons]
    have hpow : 0 < (edges.length + 1) ^ (depth - cd) := Nat.pow_pos (Nat.succ_pos _)
    omega
  · have hdep : ∀ (es : List LineageEdge) (visited : List String),
        ∀ n ∈ (addNeighbors dir cd es visited).1, n.depth = cd + 1 := by
      intro es
      induction es with
      | nil => intro visited n hn; simp [addNeighbors] at hn
      | cons e es ih =>
        intro visited n hn
        rw [addNeighbors] at hn
        split at hn
        · exact ih _ n hn
        · simp only [List.mem_cons] at hn
          rcases hn with h | h
          · rw [h]
          · exact ih _ n h
    have hlen : ∀ (es : List LineageEdge) (visited : List String),
        (addNeighbors dir cd es visited).1.length ≤ es.length := by
      intro es
      induction es with
      | nil => intro _visited; simp [addNeighbors]
      | cons e es ih =>
        intro visited
        rw [addNeighbors]
        split
        · exact Nat.le_succ_of_le (ih _)
        · simpa using ih _
    simp only [List.map_append, List.sum_append, List.map_cons, List.sum_cons, List.map_map]
    set W := (edges.length + 1) ^ (depth - (cd + 1))
    have hW : depth - cd = (depth - (cd + 1)) + 1 := by omega
    have hsum : ((addNeighbors dir cd (edgeQuery edges cutoff dir current) visited).1.map
        ((fun p => (edges.length + 1) ^ (depth - p.2)) ∘ (fun n => (n.table, n.depth)))).sum
        ≤ (addNeighbors dir cd (edgeQuery edges cutoff dir current) visited).1.length * W := by
      have := List.sum_le_card_nsmul
        ((addNeighbors dir cd (edgeQuery edges cutoff dir current) visited).1.map
          ((fun p => (edges.length + 1) ^ (depth - p.2)) ∘ (fun n => (n.table, n.depth)))) W ?_
      · simpa [smul_eq_mul] using this
      · intro x hx
        simp only [List.mem_map, Function.comp] at hx
        obtain ⟨n, hn, rfl⟩ := hx
        rw [hdep _ _ n hn]
    have hq : (edgeQuery edges cutoff dir current).length ≤ edges.length := by
      cases dir <;> simp only [edgeQuery] <;> exact List.length_filter_le _ _
    have hk : (addNeighbors dir cd (edgeQuery edges cutoff dir current) visited).1.length
        ≤ edges.length := le_trans (hlen _ _) hq
    have hmul : (addNeighbors dir cd (edgeQuery edges cutoff dir current) visited).1.length * W
        ≤ edges.length * W := Nat.mul_le_mul_right W hk
    have hWpos : 0 < W := Nat.pow_pos (Nat.succ_pos _)
    have hbig : (edges.length + 1) ^ (depth - cd) = (edges.length + 1) * W := by
      rw [hW, pow_succ, Nat.mul_comm]
    have hlt : edges.length * W < (edges.length + 1) * W :=
      mul_lt_mul_of_pos_right (Nat.lt_succ_self _) hWpos
    omega

/-- `LineageGraph._bfs`: seed the queue with the start table at depth 0,
the start already visited. -/
def lineage_bfs (edges : List LineageEdge) (cutoff : ℚ) (dir : Direction)
    (start : String) (depth : Nat) : List BfsNode :=
  bfsLoop edges cutoff dir depth [(start, 0)] [start]

/-- The node an edge is traversed from (the other end of `neighborOf`). -/
def baseOf (dir : Direction) (e : LineageEdge) : String :=
  match dir with
  | .downstream => e.source_table
  | .upstream => e.target_table

/-- `t` is reachable from `start` in at most `n` hops over the
recency-filtered edge set, following edges in the given direction. -/
def reachBool (edges : List LineageEdge) (cutoff : ℚ) (dir : Direction)
    (start : String) : Nat → String → Bool
  | 0, t => start == t
  | n + 1, t => start == t ||
      edges.any (fun e => decide (cutoff ≤ e.last_seen_at)
        && (neighborOf dir e == t)
        && reachBool edges cutoff dir start n (baseOf dir e))

/-- First-occurrence deduplication, the spec's "one edge per distinct
source table". -/
def firstDedup (l : List String) : List String :=
  l.foldl (fun acc s => if s ∈ acc then acc else acc ++ [s]) []

/-! ## Helper lemmas -/

theorem rank_le_classifyStep_left (m : String) (c : SchemaChange) :
    severityRank m ≤ severityRank (classifyStep m c) := by
  unfold classifyStep
  dsimp only
  split
  · omega
  · exact le_refl _

theorem rank_le_classifyStep_right (m : String) (c : SchemaChange) :
    severityRank (changeSeverity c) ≤ severityRank (classifyStep m c) := by
  unfold classifyStep
  dsimp only
  split
  · exact le_refl _
  · omega

theorem classifyStep_eq_or (m : String) (c : SchemaChange) :
    classifyStep m c = m ∨ classifyStep m c = changeSeverity c := by
  unfold classifyStep
  dsimp only
  split
  · right; rfl
  · left; rfl

theorem rank_le_classify_foldl (l : List SchemaChange) (acc : String) :
    severityRank acc ≤ severityRank (l.foldl classifyStep acc) := by
  induction l generalizing acc with
  | nil => exact le_refl _
  | cons c t ih =>
    exact le_trans (rank_le_classifyStep_left acc c) (ih (classifyStep acc c))

theorem mem_rank_le_classify_foldl (l : List SchemaChange) (acc : String)
    (c : SchemaChange) (hc : c ∈ l) :
    severityRank (changeSeverity c) ≤ severityRank (l.foldl classifyStep acc) := by
  induction l generalizing acc with
  | nil => simp at hc
  | cons d t ih =>
    rcases List.mem_cons.mp hc with h | h
    · subst h
      exact le_trans (rank_le_classifyStep_right acc c)
        (rank_le_classify_foldl t (classifyStep acc c))
    · exact ih (classifyStep acc d) h

theorem classify_foldl_eq_or (l : List SchemaChange) (acc : String) :
    l.foldl classifyStep acc = acc ∨ ∃ c ∈ l, l.foldl classifyStep acc = changeSeverity c := by
  induction l generalizing acc with
  | nil => left; rfl
  | cons d t ih =>
    rcases ih (classifyStep acc d) with h | ⟨c, hc, h⟩
    · rcases classifyStep_eq_or acc d with h2 | h2
      · left; simpa [h2] using h
      · right
        exact ⟨d, List.mem_cons_self d t, by simpa [h2] using h⟩
    · right
      exact ⟨c, List.mem_cons_of_mem d hc, h⟩

theorem changeSeverity_cases (c : SchemaChange) :
    changeSeverity c = "critical" ∨ changeSeverity c = "low" ∨ changeSeverity c = "medium" := by
  cases c with
  | column_deleted n old => left; rfl
  | type_changed n ot nt => left; rfl
  | column_added n nullable cc =>
    cases nullable
    · right; right; rfl
    · right; left; rfl
  | otherChange k => right; right; rfl

theorem mem_dictKeys_foldl (cols : List Column) :
    ∀ (acc : List String) (n : String),
      n ∈ cols.foldl (fun acc c => if c.name ∈ acc then acc else acc ++ [c.name]) acc ↔
        n ∈ acc ∨ ∃ c ∈ cols, c.name = n := by
  induction cols with
  | nil => simp
  | cons c t ih =>
    intro acc n
    simp only [List.foldl_cons]
    rw [ih]
    by_cases hc : c.name ∈ acc
    · rw [if_pos hc]
      constructor
      · rintro (h | ⟨d, hd, rfl⟩)
        · exact Or.inl h
        · exact Or.inr ⟨d, List.mem_cons_of_mem c hd, rfl⟩
      · rintro (h | ⟨d, hd, rfl⟩)
        · exact Or.inl h
        · rcases List.mem_cons.mp hd with rfl | hd
          · exact Or.inl hc
          · exact Or.inr ⟨d, hd, rfl⟩
    · rw [if_neg hc]
      constructor
      · rintro (h | ⟨d, hd, rfl⟩)
        · rcases List.mem_append.mp h with h | h
          · exact Or.inl h
          · exact Or.inr ⟨c, List.mem_cons_self c t, (List.mem_singleton.mp h).symm⟩
        · exact Or.inr ⟨d, List.mem_cons_of_mem c hd, rfl⟩
      · rintro (h | ⟨d, hd, rfl⟩)
        · exact Or.inl (List.mem_append.mpr (Or.inl h))
        · rcases List.mem_cons.mp hd with rfl | hd
          · exact Or.inl (List.mem_append.mpr (Or.inr (List.mem_singleton.mpr rfl)))
          · exact Or.inr ⟨d, hd, rfl⟩

theorem mem_dictKeys (cols : List Column) (n : String) :
    n ∈ dictKeys cols ↔ ∃ c ∈ cols, c.name = n := by
  unfold dictKeys
  rw [mem_dictKeys_foldl]
  simp

theorem hasName_iff (cols : List Column) (n : String) :
    hasName cols n = true ↔ ∃ c ∈ cols, c.name = n := by
  simp [hasName]

theorem dictGet_mem (cols : List Column) (n : String) (c : Column)
    (h : dictGet cols n = some c) : c ∈ cols ∧ c.name = n := by
  unfold dictGet at h
  rcases List.mem_getLast?_eq_getLast h with ⟨hne, rfl⟩
  have hmem := List.getLast_mem hne
  rcases List.mem_filter.mp hmem with ⟨h1, h2⟩
  exact ⟨h1, by simpa using h2⟩

theorem dictGet_some_of_hasName (cols : List Column) (n : String)
    (h : hasName cols n = true) : ∃ c, dictGet cols n = some c := by
  rcases (hasName_iff cols n).mp h with ⟨c, hc, hn⟩
  have hne : cols.filter (fun c => decide (c.name = n)) ≠ [] := by
    intro hnil
    have := List.filter_eq_nil_iff.mp hnil c hc
    simp [hn] at this
  have := List.getLast?_isSome.mpr hne
  rcases Option.isSome_iff_exists.mp this with ⟨d, hd⟩
  exact ⟨d, hd⟩

theorem diff_schemas_nil (old new : List Column)
    (hnames1 : ∀ c ∈ old, hasName new c.name = true)
    (hnames2 : ∀ c ∈ new, hasName old c.name = true)
    (htypes : ∀ c1 ∈ old, ∀ c2 ∈ new, c1.name = c2.name → c1.type = c2.type) :
    diff_schemas old new = [] := by
  unfold diff_schemas
  dsimp only
  rw [List.append_eq_nil, List.append_eq_nil]
  refine ⟨⟨?_, ?_⟩, ?_⟩
  · rw [List.filterMap_eq_nil_iff]
    intro n hn
    rcases (mem_dictKeys old n).mp hn with ⟨c, hc, rfl⟩
    rw [if_pos (hnames1 c hc)]
  · rw [List.filterMap_eq_nil_iff]
    intro n hn
    rcases (mem_dictKeys new n).mp hn with ⟨c, hc, rfl⟩
    rw [if_pos (hnames2 c hc)]
  · rw [List.filterMap_eq_nil_iff]
    intro n hn
    rcases (mem_dictKeys old n).mp hn with ⟨c, hc, rfl⟩
    rcases dictGet_some_of_hasName old c.name
        ((hasName_iff old c.name).mpr ⟨c, hc, rfl⟩) with ⟨oc, hoc⟩
    rcases dictGet_mem old c.name oc hoc with ⟨hocm, hocn⟩
    rcases dictGet_some_of_hasName new c.name
        (by rw [← hocn]; exact hnames1 oc hocm) with ⟨nc, hnc⟩
    rcases dictGet_mem new c.name nc hnc with ⟨hncm, hncn⟩
    rw [hoc, hnc]
    have hty : oc.type = nc.type := htypes oc hocm nc hncm (by rw [hocn, hncn])
    simp [hty]

theorem foldl_edgeStep_nil (stmts : List (Option Expr))
    (h : ∀ stmt : Expr, some stmt ∈ stmts → extract_target stmt = none) :
    ∀ acc, stmts.foldl edgeStep acc = acc := by
  induction stmts with
  | nil => intro acc; rfl
  | cons o t ih =>
    intro acc
    rw [List.foldl_cons]
    have hstep : edgeStep acc o = acc := by
      cases o with
      | none => rfl
      | some stmt =>
        have := h stmt (List.mem_cons_self _ _)
        simp only [edgeStep, this]
    rw [hstep]
    exact ih (fun stmt hs => h stmt (List.mem_cons_of_mem o hs)) acc

theorem sources_fold_pair (T : String) (entries : List (String × Nat))
    (hd : ∀ p ∈ entries, p.2 = 0) :
    ∀ (seen : List String) (acc : List (String × ℚ)),
      acc = seen.map (fun s => (s, (1 : ℚ))) →
      entries.foldl
        (fun (acc : List (String × ℚ) × List String) nd =>
          if nd.1 = T ∨ nd.1 ∈ acc.2 then acc
          else (acc.1 ++ [(nd.1, compute_confidence nd.2)], acc.2 ++ [nd.1]))
        (acc, seen)
      = ((entries.foldl
            (fun sn nd => if nd.1 = T ∨ nd.1 ∈ sn then sn else sn ++ [nd.1]) seen).map
          (fun s => (s, (1 : ℚ))),
         entries.foldl
          (fun sn nd => if nd.1 = T ∨ nd.1 ∈ sn then sn else sn ++ [nd.1]) seen) := by
  induction entries with
  | nil =>
    intro seen acc hacc
    simp [hacc]
  | cons p t ih =>
    intro seen acc hacc
    have hp : p.2 = 0 := hd p (List.mem_cons_self _ _)
    have hdt : ∀ q ∈ t, q.2 = 0 := fun q hq => hd q (List.mem_cons_of_mem p hq)
    rw [List.foldl_cons, List.foldl_cons]
    by_cases hc : p.1 = T ∨ p.1 ∈ seen
    · rw [if_pos (by simpa using hc), if_pos hc]
      exact ih hdt seen acc hacc
    · rw [if_neg (by simpa [hacc] using hc), if_neg hc]
      refine (ih hdt (seen ++ [p.1]) _ ?_)
      rw [hacc, hp]
      simp [compute_confidence]

theorem names_fold_filter (T : String) (entries : List (String × Nat)) :
    ∀ sn : List String,
      entries.foldl (fun sn nd => if nd.1 = T ∨ nd.1 ∈ sn then sn else sn ++ [nd.1]) sn
      = ((entries.map Prod.fst).filter (fun s => s ≠ T)).foldl
          (fun acc s => if s ∈ acc then acc else acc ++ [s]) sn := by
  induction entries with
  | nil => intro sn; rfl
  | cons p t ih =>
    intro sn
    rw [List.foldl_cons, List.map_cons, List.filter_cons]
    by_cases hT : p.1 = T
    · rw [if_pos (Or.inl hT), if_neg (by simp [hT])]
      exact ih sn
    · rw [if_pos (show decide (p.1 ≠ T) = true by simp [hT]), List.foldl_cons]
      by_cases hm : p.1 ∈ sn
      · rw [if_pos (Or.inr hm), if_pos hm]
        exact ih sn
      · rw [if_neg (by tauto), if_neg hm]
        exact ih (sn ++ [p.1])

theorem extract_sources_all_direct (stmt : Expr) (T : String)
    (hd : ∀ p ∈ bfsTables [(stmt, 0)], p.2 = 0) :
    extract_sources stmt T =
      (firstDedup (((bfsTables [(stmt, 0)]).map Prod.fst).filter (fun s => s ≠ T))).map
        (fun s => (s, (1 : ℚ))) := by
  unfold extract_sources firstDedup
  rw [sources_fold_pair T (bfsTables [(stmt, 0)]) hd [] [] rfl]
  rw [names_fold_filter]

theorem handle_anomaly_create (arch : Anomaly → Option Diagnosis)
    (execu : Anomaly → Diagnosis → Option Remediation)
    (a : Anomaly) (newId : Nat) (now : ℚ) (st : OrchStore)
    (hfind : find_open_incident st a.table_id a.type = none) :
    ∃ inc5 : Incident,
      handle_anomaly arch execu a newId now st =
        (inc5, { st with incidents := inc5 :: st.incidents })
      ∧ inc5.status = "pending_review" ∧ inc5.anomaly_id = a.id ∧ inc5.id = newId := by
  unfold handle_anomaly
  rw [hfind]
  dsimp only
  rcases arch a with _ | d
  · dsimp only
    cases h : st.tables.find? (fun t => t.id == a.table_id) with
    | none =>
      simp only [h]
      exact ⟨_, rfl, rfl, rfl, rfl⟩
    | some table =>
      simp only [h]
      exact ⟨_, rfl, rfl, rfl, rfl⟩
  · dsimp only
    rcases execu a d with _ | r <;> dsimp only <;>
        cases h : st.tables.find? (fun t => t.id == a.table_id) <;> simp only [h] <;>
      exact ⟨_, rfl, rfl, rfl, rfl⟩

theorem addNeighbors_visited (dir : Direction) (cd : Nat) :
    ∀ (es : List LineageEdge) (visited : List String),
      (addNeighbors dir cd es visited).2 =
        ((addNeighbors dir cd es visited).1.map BfsNode.table).reverse ++ visited := by
  intro es
  induction es with
  | nil => intro visited; simp [addNeighbors]
  | cons e es ih =>
    intro visited
    rw [addNeighbors]
    split
    · exact ih visited
    · dsimp only
      rw [ih (neighborOf dir e :: visited)]
      simp

theorem addNeighbors_nodup_fresh (dir : Direction) (cd : Nat) :
    ∀ (es : List LineageEdge) (visited : List String),
      ((addNeighbors dir cd es visited).1.map BfsNode.table).Nodup
      ∧ ∀ t ∈ (addNeighbors dir cd es visited).1.map BfsNode.table, t ∉ visited := by
  intro es
  induction es with
  | nil => intro visited; simp [addNeighbors]
  | cons e es ih =>
    intro visited
    rw [addNeighbors]
    split
    · exact ih visited
    · rename_i hnb
      dsimp only
      obtain ⟨ih1, ih2⟩ := ih (neighborOf dir e :: visited)
      rw [List.map_cons]
      constructor
      · rw [List.nodup_cons]
        refine ⟨fun hmem => ?_, ih1⟩
        have := ih2 _ hmem
        simp at this
      · intro t ht
        rcases List.mem_cons.mp ht with rfl | ht
        · exact hnb
        · have := ih2 t ht
          intro hv
          exact this (List.mem_cons_of_mem _ hv)

theorem addNeighbors_depth (dir : Direction) (cd : Nat) :
    ∀ (es : List LineageEdge) (visited : List String),
      ∀ n ∈ (addNeighbors dir cd es visited).1, n.depth = cd + 1 := by
  intro es
  induction es with
  | nil => intro visited n hn; simp [addNeighbors] at hn
  | cons e es ih =>
    intro visited n hn
    rw [addNeighbors] at hn
    split at hn
    · exact ih _ n hn
    · rcases List.mem_cons.mp hn with rfl | hn
      · rfl
      · exact ih _ n hn

theorem addNeighbors_provenance (dir : Direction) (cd : Nat) :
    ∀ (es : List LineageEdge) (visited : List String),
      ∀ n ∈ (addNeighbors dir cd es visited).1,
        ∃ e ∈ es, neighborOf dir e = n.table ∧ e.confidence = n.confidence := by
  intro es
  induction es with
  | nil => intro visited n hn; simp [addNeighbors] at hn
  | cons e es ih =>
    intro visited n hn
    rw [addNeighbors] at hn
    split at hn
    · rcases ih _ n hn with ⟨e', he', h1, h2⟩
      exact ⟨e', List.mem_cons_of_mem e he', h1, h2⟩
    · rcases List.mem_cons.mp hn with rfl | hn
      · exact ⟨e, List.mem_cons_self e es, rfl, rfl⟩
      · rcases ih _ n hn with ⟨e', he', h1, h2⟩
        exact ⟨e', List.mem_cons_of_mem e he', h1, h2⟩

theorem mem_edgeQuery (edges : List LineageEdge) (cutoff : ℚ) (dir : Direction)
    (current : String) (e : LineageEdge) (h : e ∈ edgeQuery edges cutoff dir current) :
    e ∈ edges ∧ cutoff ≤ e.last_seen_at ∧ baseOf dir e = current := by
  cases dir <;> simp only [edgeQuery] at h <;>
    rcases List.mem_filter.mp h with ⟨h1, h2⟩ <;>
    simp only [Bool.and_eq_true, beq_iff_eq, decide_eq_true_eq] at h2 <;>
    exact ⟨h1, h2.2, by simp [baseOf, h2.1]⟩

theorem reachBool_step (edges : List LineageEdge) (cutoff : ℚ) (dir : Direction)
    (start : String) (n : Nat) (e : LineageEdge) (t : String)
    (he : e ∈ edges) (hfresh : cutoff ≤ e.last_seen_at) (hnb : neighborOf dir e = t)
    (hreach : reachBool edges cutoff dir start n (baseOf dir e) = true) :
    reachBool edges cutoff dir start (n + 1) t = true := by
  rw [reachBool]
  rw [Bool.or_eq_true]
  right
  rw [List.any_eq_true]
  exact ⟨e, he, by simp [hfresh, hnb, hreach]⟩

theorem bfsLoop_sound (edges : List LineageEdge) (cutoff : ℚ) (dir : Direction)
    (depth : Nat) (start : String) :
    ∀ (queue : List (String × Nat)) (visited : List String),
      (∀ p ∈ queue, reachBool edges cutoff dir start p.2 p.1 = true) →
      ∀ n ∈ bfsLoop edges cutoff dir depth queue visited,
        (1 ≤ n.depth ∧ n.depth ≤ depth)
        ∧ reachBool edges cutoff dir start n.depth n.table = true
        ∧ ∃ e ∈ edges, cutoff ≤ e.last_seen_at ∧ neighborOf dir e = n.table
            ∧ e.confidence = n.confidence := by
  intro queue visited
  induction queue, visited using bfsLoop.induct edges cutoff dir depth with
  | case1 visited =>
    intro hq n hn
    simp [bfsLoop] at hn
  | case2 current cd rest visited hstop ih =>
    intro hq n hn
    rw [bfsLoop, if_pos hstop] at hn
    exact ih (fun p hp => hq p (List.mem_cons_of_mem _ hp)) n hn
  | case3 current cd rest visited hstop out ih =>
    intro hq n hn
    rw [bfsLoop, if_neg hstop] at hn
    have hcur : reachBool edges cutoff dir start cd current = true :=
      hq (current, cd) (List.mem_cons_self _ _)
    have hnew : ∀ m ∈ (addNeighbors dir cd (edgeQuery edges cutoff dir current) visited).1,
        m.depth = cd + 1
        ∧ reachBool edges cutoff dir start m.depth m.table = true
        ∧ ∃ e ∈ edges, cutoff ≤ e.last_seen_at ∧ neighborOf dir e = m.table
            ∧ e.confidence = m.confidence := by
      intro m hm
      have hd := addNeighbors_depth dir cd _ _ m hm
      rcases addNeighbors_provenance dir cd _ _ m hm with ⟨e, he, hnb, hconf⟩
      rcases mem_edgeQuery edges cutoff dir current e he with ⟨he1, he2, he3⟩
      refine ⟨hd, ?_, e, he1, he2, hnb, hconf⟩
      rw [hd]
      exact reachBool_step edges cutoff dir start cd e m.table he1 he2 hnb
        (by rw [he3]; exact hcur)
    dsimp only at hn
    rcases List.mem_append.mp hn with hn | hn
    · rcases hnew n hn with ⟨hd, hr, hprov⟩
      exact ⟨⟨by omega, by omega⟩, hr, hprov⟩
    · refine ih ?_ n hn
      intro p hp
      rcases List.mem_append.mp hp with hp | hp
      · exact hq p (List.mem_cons_of_mem _ hp)
      · rcases List.mem_map.mp hp with ⟨m, hm, rfl⟩
        exact (hnew m hm).2.1

theorem bfsLoop_nodup (edges : List LineageEdge) (cutoff : ℚ) (dir : Direction)
    (depth : Nat) :
    ∀ (queue : List (String × Nat)) (visited : List String),
      ((bfsLoop edges cutoff dir depth queue visited).map BfsNode.table).Nodup
      ∧ ∀ t ∈ (bfsLoop edges cutoff dir depth queue visited).map BfsNode.table,
          t ∉ visited := by
  intro queue visited
  induction queue, visited using bfsLoop.induct edges cutoff dir depth with
  | case1 visited =>
    simp [bfsLoop]
  | case2 current cd rest visited hstop ih =>
    rw [bfsLoop, if_pos hstop]
    exact ih
  | case3 current cd rest visited hstop out ih =>
    rw [bfsLoop, if_neg hstop]
    obtain ⟨ihn, ihf⟩ := ih
    have hA := addNeighbors_nodup_fresh dir cd (edgeQuery edges cutoff dir current) visited
    have hV := addNeighbors_visited dir cd (edgeQuery edges cutoff dir current) visited
    dsimp only
    rw [List.map_append]
    constructor
    · rw [List.nodup_append]
      refine ⟨hA.1, ihn, ?_⟩
      intro t ht htrec
      have := ihf t htrec
      rw [hV] at this
      exact this (List.mem_append.mpr (Or.inl (List.mem_reverse.mpr ht)))
    · intro t ht
      rcases List.mem_append.mp ht with ht | ht
      · exact hA.2 t ht
      · have := ihf t ht
        rw [hV] at this
        intro hv
        exact this (List.mem_append.mpr (Or.inr hv))

theorem sorted_of_all_eq (l : List Nat) (v : Nat) (h : ∀ x ∈ l, x = v) :
    l.Sorted (· ≤ ·) := by
  induction l with
  | nil => exact List.sorted_nil
  | cons x t ih =>
    rw [List.sorted_cons]
    refine ⟨?_, ih (fun y hy => h y (List.mem_cons_of_mem x hy))⟩
    intro b hb
    rw [h x (List.mem_cons_self x t), h b (List.mem_cons_of_mem x hb)]

theorem bfsLoop_depth_mono (edges : List LineageEdge) (cutoff : ℚ) (dir : Direction)
    (depth : Nat) :
    ∀ (queue : List (String × Nat)) (visited : List String),
      (queue.map Prod.snd).Sorted (· ≤ ·) →
      (∀ p ∈ queue, ∀ q ∈ queue, p.2 ≤ q.2 + 1) →
      ((bfsLoop edges cutoff dir depth queue visited).map BfsNode.depth).Sorted (· ≤ ·)
      ∧ (∀ c cd rest2, queue = (c, cd) :: rest2 →
          ∀ n ∈ bfsLoop edges cutoff dir depth queue visited, cd + 1 ≤ n.depth) := by
  intro queue visited
  induction queue, visited using bfsLoop.induct edges cutoff dir depth with
  | case1 visited =>
    intro hsort hspan
    constructor
    · simp [bfsLoop]
    · intro c cd rest2 h
      exact absurd h (by simp)
  | case2 current cd rest visited hstop ih =>
    intro hsort hspan
    rw [List.map_cons, List.sorted_cons] at hsort
    have hsort' := hsort.2
    have hspan' : ∀ p ∈ rest, ∀ q ∈ rest, p.2 ≤ q.2 + 1 := by
      intro p hp q hq
      exact hspan p (List.mem_cons_of_mem _ hp) q (List.mem_cons_of_mem _ hq)
    obtain ⟨ihs, ihlb⟩ := ih hsort' hspan'
    rw [bfsLoop, if_pos hstop]
    constructor
    · exact ihs
    · intro c cd' rest2 h n hn
      injection h with h1 h2
      have hcd : cd = cd' := congrArg Prod.snd h1
      cases rest with
      | nil => simp [bfsLoop] at hn
      | cons p2 r2 =>
        have hlb := ihlb p2.1 p2.2 r2 rfl n hn
        have hle : cd ≤ p2.2 := hsort.1 p2.2 (by rw [List.mem_map]; exact ⟨p2, List.mem_cons_self _ _, rfl⟩)
        omega
  | case3 current cd rest visited hstop out ih =>
    intro hsort hspan
    rw [List.map_cons, List.sorted_cons] at hsort
    have hD := addNeighbors_depth dir cd (edgeQuery edges cutoff dir current) visited
    have hq'sort : ((rest ++ (addNeighbors dir cd (edgeQuery edges cutoff dir current) visited).1.map
        (fun n => (n.table, n.depth))).map Prod.snd).Sorted (· ≤ ·) := by
      rw [List.map_append, List.map_map]
      refine List.pairwise_append.mpr ⟨hsort.2, ?_, ?_⟩
      · apply sorted_of_all_eq _ (cd + 1)
        intro x hx
        rcases List.mem_map.mp hx with ⟨m, hm, rfl⟩
        exact hD m hm
      · intro a ha b hb
        rcases List.mem_map.mp ha with ⟨p, hp, rfl⟩
        rcases List.mem_map.mp hb with ⟨m, hm, rfl⟩
        have h1 : p.2 ≤ cd + 1 :=
          hspan p (List.mem_cons_of_mem _ hp) (current, cd) (List.mem_cons_self _ _)
        have h2 : (Prod.snd ∘ fun n => (n.table, n.depth)) m = cd + 1 := hD m hm
        simp only [Function.comp_apply] at h2 ⊢
        omega
    have hq'span : ∀ p ∈ rest ++ (addNeighbors dir cd (edgeQuery edges cutoff dir current) visited).1.map
          (fun n => (n.table, n.depth)), ∀ q ∈ rest ++ (addNeighbors dir cd (edgeQuery edges cutoff dir current) visited).1.map
          (fun n => (n.table, n.depth)), p.2 ≤ q.2 + 1 := by
      intro p hp q hq
      rcases List.mem_append.mp hp with hp | hp <;> rcases List.mem_append.mp hq with hq | hq
      · exact hspan p (List.mem_cons_of_mem _ hp) q (List.mem_cons_of_mem _ hq)
      · rcases List.mem_map.mp hq with ⟨m, hm, rfl⟩
        have h1 : p.2 ≤ cd + 1 :=
          hspan p (List.mem_cons_of_mem _ hp) (current, cd) (List.mem_cons_self _ _)
        have h2 := hD m hm
        simp only
        omega
      · rcases List.mem_map.mp hp with ⟨m, hm, rfl⟩
        have h2 := hD m hm
        have h1 : cd ≤ q.2 := hsort.1 q.2 (by rw [List.mem_map]; exact ⟨q, hq, rfl⟩)
        simp only
        omega
      · rcases List.mem_map.mp hp with ⟨m, hm, rfl⟩
        rcases List.mem_map.mp hq with ⟨m2, hm2, rfl⟩
        have h1 := hD m hm
        have h2 := hD m2 hm2
        simp only
        omega
    obtain ⟨ihs, ihlb⟩ := ih hq'sort hq'span
    have hreclb : ∀ n ∈ bfsLoop edges cutoff dir depth
        (rest ++ (addNeighbors dir cd (edgeQuery edges cutoff dir current) visited).1.map
          (fun n => (n.table, n.depth))) (addNeighbors dir cd (edgeQuery edges cutoff dir current) visited).2,
        cd + 1 ≤ n.depth := by
      intro n hn
      cases hq : rest ++ (addNeighbors dir cd (edgeQuery edges cutoff dir current) visited).1.map
          (fun n => (n.table, n.depth)) with
      | nil =>
        rw [hq] at hn
        simp [bfsLoop] at hn
      | cons p2 r2 =>
        have hlb := ihlb p2.1 p2.2 r2 (by rw [hq]) n hn
        have hp2 : cd ≤ p2.2 := by
          have hp2mem : p2 ∈ rest ++ (addNeighbors dir cd (edgeQuery edges cutoff dir current) visited).1.map
              (fun n => (n.table, n.depth)) := by rw [hq]; exact List.mem_cons_self _ _
          rcases List.mem_append.mp hp2mem with hp | hp
          · exact hsort.1 p2.2 (by rw [List.mem_map]; exact ⟨p2, hp, rfl⟩)
          · rcases List.mem_map.mp hp with ⟨m, hm, heq⟩
            have hd2 := hD m hm
            have hp22 : p2.2 = m.depth := by rw [← heq]
            omega
        omega
    rw [bfsLoop, if_neg hstop]
    dsimp only
    constructor
    · rw [List.map_append]
      refine List.pairwise_append.mpr ⟨?_, ihs, ?_⟩
      · apply sorted_of_all_eq _ (cd + 1)
        intro x hx
        rcases List.mem_map.mp hx with ⟨m, hm, rfl⟩
        exact hD m hm
      · intro a ha b hb
        rcases List.mem_map.mp ha with ⟨m, hm, rfl⟩
        rcases List.mem_map.mp hb with ⟨m2, hm2, rfl⟩
        have h1 := hD m hm
        have h2 := hreclb m2 hm2
        omega
    · intro c cd' rest2 h n hn
      have hcd : cd' = cd := by
        injection h with ha hb
        exact (congrArg Prod.snd ha).symm
      subst hcd
      rcases List.mem_append.mp hn with hn | hn
      · have := hD n hn
        omega
      · exact hreclb n hn

theorem addNeighbors_first_edge (dir : Direction) (cd : Nat) :
    ∀ (es : List LineageEdge) (visited : List String),
      ∀ n ∈ (addNeighbors dir cd es visited).1,
        ∃ e, es.find? (fun e2 => neighborOf dir e2 == n.table) = some e
          ∧ e.confidence = n.confidence := by
  intro es
  induction es with
  | nil => intro visited n hn; simp [addNeighbors] at hn
  | cons e es ih =>
    intro visited n hn
    rw [addNeighbors] at hn
    split at hn
    · rename_i hnb
      have hfresh : n.table ∉ visited := by
        have := (addNeighbors_nodup_fresh dir cd es visited).2 n.table
        exact this (List.mem_map.mpr ⟨n, hn, rfl⟩)
      have hne : (neighborOf dir e == n.table) = false := by
        rw [beq_eq_false_iff_ne]
        intro heq
        rw [heq] at hnb
        exact hfresh hnb
      rcases ih visited n hn with ⟨e', he', hc⟩
      refine ⟨e', ?_, hc⟩
      rw [List.find?_cons_of_neg _ (by simp [hne]), he']
    · rename_i hnb
      rcases List.mem_cons.mp hn with rfl | hn
      · exact ⟨e, List.find?_cons_of_pos _ (by simp), rfl⟩
      · have hfresh : n.table ∉ neighborOf dir e :: visited := by
          have := (addNeighbors_nodup_fresh dir cd es (neighborOf dir e :: visited)).2 n.table
          exact this (List.mem_map.mpr ⟨n, hn, rfl⟩)
        have hne : (neighborOf dir e == n.table) = false := by
          rw [beq_eq_false_iff_ne]
          intro heq
          exact hfresh (heq ▸ List.mem_cons_self _ _)
        rcases ih (neighborOf dir e :: visited) n hn with ⟨e', he', hc⟩
        refine ⟨e', ?_, hc⟩
        rw [List.find?_cons_of_neg _ (by simp [hne]), he']

theorem bfsLoop_first_visit (edges : List LineageEdge) (cutoff : ℚ) (dir : Direction)
    (depth : Nat) (start : String) :
    ∀ (queue : List (String × Nat)) (visited : List String) (prior : List BfsNode),
      (∀ p ∈ queue, (p.1 = start ∧ p.2 = 0) ∨ ∃ m ∈ prior, m.table = p.1 ∧ m.depth = p.2) →
      ∀ (pre : List BfsNode) (n : BfsNode) (post : List BfsNode),
        bfsLoop edges cutoff dir depth queue visited = pre ++ n :: post →
        ∃ u : String,
          ((u = start ∧ n.depth = 1) ∨ ∃ m ∈ prior ++ pre, m.table = u ∧ m.depth + 1 = n.depth)
          ∧ ∃ e, (edgeQuery edges cutoff dir u).find?
                (fun e2 => neighborOf dir e2 == n.table) = some e
              ∧ e.confidence = n.confidence := by
  intro queue visited
  induction queue, visited using bfsLoop.induct edges cutoff dir depth with
  | case1 visited =>
    intro prior hq pre n post hsplit
    rw [bfsLoop] at hsplit
    simp at hsplit
  | case2 current cd rest visited hstop ih =>
    intro prior hq pre n post hsplit
    rw [bfsLoop, if_pos hstop] at hsplit
    exact ih prior (fun p hp => hq p (List.mem_cons_of_mem _ hp)) pre n post hsplit
  | case3 current cd rest visited hstop out ih =>
    intro prior hq pre n post hsplit
    rw [bfsLoop, if_neg hstop] at hsplit
    dsimp only at hsplit
    have hcur := hq (current, cd) (List.mem_cons_self _ _)
    rcases List.append_eq_append_iff.mp hsplit with ⟨a', hpre, hrec⟩ | ⟨c', hout, hcons⟩
    · -- n is in the recursive part, rec = a' ++ n :: post
      have hq' : ∀ p ∈ rest ++ (addNeighbors dir cd (edgeQuery edges cutoff dir current) visited).1.map
          (fun m => (m.table, m.depth)),
          (p.1 = start ∧ p.2 = 0)
          ∨ ∃ m ∈ prior ++ (addNeighbors dir cd (edgeQuery edges cutoff dir current) visited).1,
              m.table = p.1 ∧ m.depth = p.2 := by
        intro p hp
        rcases List.mem_append.mp hp with hp | hp
        · rcases hq p (List.mem_cons_of_mem _ hp) with h | ⟨m, hm, h1, h2⟩
          · exact Or.inl h
          · exact Or.inr ⟨m, List.mem_append.mpr (Or.inl hm), h1, h2⟩
        · rcases List.mem_map.mp hp with ⟨m, hm, rfl⟩
          exact Or.inr ⟨m, List.mem_append.mpr (Or.inr hm), rfl, rfl⟩
      rcases ih (prior ++ (addNeighbors dir cd (edgeQuery edges cutoff dir current) visited).1)
          hq' a' n post hrec with ⟨u, hu, he⟩
      refine ⟨u, ?_, he⟩
      rcases hu with h | ⟨m, hm, h1, h2⟩
      · exact Or.inl h
      · refine Or.inr ⟨m, ?_, h1, h2⟩
        rw [hpre]
        rw [List.append_assoc] at hm
        exact hm
    · -- n is in out.1 (or at the boundary)
      cases c' with
      | nil =>
        -- out.1 = pre, rec = n :: post : n is the head of the recursive part
        rw [List.nil_append] at hcons
        have hq' : ∀ p ∈ rest ++ (addNeighbors dir cd (edgeQuery edges cutoff dir current) visited).1.map
            (fun m => (m.table, m.depth)),
            (p.1 = start ∧ p.2 = 0)
            ∨ ∃ m ∈ prior ++ (addNeighbors dir cd (edgeQuery edges cutoff dir current) visited).1,
                m.table = p.1 ∧ m.depth = p.2 := by
          intro p hp
          rcases List.mem_append.mp hp with hp | hp
          · rcases hq p (List.mem_cons_of_mem _ hp) with h | ⟨m, hm, h1, h2⟩
            · exact Or.inl h
            · exact Or.inr ⟨m, List.mem_append.mpr (Or.inl hm), h1, h2⟩
          · rcases List.mem_map.mp hp with ⟨m, hm, rfl⟩
            exact Or.inr ⟨m, List.mem_append.mpr (Or.inr hm), rfl, rfl⟩
        rcases ih (prior ++ (addNeighbors dir cd (edgeQuery edges cutoff dir current) visited).1)
            hq' [] n post hcons.symm with ⟨u, hu, he⟩
        refine ⟨u, ?_, he⟩
        rcases hu with h | ⟨m, hm, h1, h2⟩
        · exact Or.inl h
        · refine Or.inr ⟨m, ?_, h1, h2⟩
          have hpre2 : (addNeighbors dir cd (edgeQuery edges cutoff dir current) visited).1 = pre := by
            simpa using hout
          rw [List.append_nil] at hm
          rw [← hpre2]
          exact hm
      | cons n2 c2 =>
        rw [List.cons_append] at hcons
        have ha : n = n2 := by injection hcons
        subst ha
        have hnmem : n ∈ (addNeighbors dir cd (edgeQuery edges cutoff dir current) visited).1 := by
          rw [hout]
          exact List.mem_append.mpr (Or.inr (List.mem_cons_self _ _))
        have hdep := addNeighbors_depth dir cd (edgeQuery edges cutoff dir current) visited n hnmem
        refine ⟨current, ?_, addNeighbors_first_edge dir cd _ _ n hnmem⟩
        rcases hcur with ⟨h1, h2⟩ | ⟨m, hm, h1, h2⟩
        · left
          refine ⟨h1.symm ▸ rfl, by omega⟩
        · right
          exact ⟨m, List.mem_append.mpr (Or.inl hm), h1, by omega⟩

/-! ## Claims -/

/-- C4 counterexample: with `sla = 60` and a table last updated 60.04
minutes ago (`now = 18012/5` seconds after `last_update = 0`), the
anomaly is emitted with `detail.minutes_overdue = 0`, while
`minutes_since − sla = 1/25`: the stored value is the one-decimal
rounding of the overdue time, not the exact difference the claim
states. -/
theorem C4_counterexample :
    (freshnessInspect ⟨1, "analytics", "orders", some 60⟩ (.ok (some 0))
        (18012 / 5) 7 ⟨[], []⟩).1 =
      some ⟨7, 1, "freshness_violation", "medium", .freshness 0 60 0, 18012 / 5⟩
    ∧ ((18012 / 5 : ℚ) - 0) / 60 - (60 : ℚ) = 1 / 25
    ∧ (0 : ℚ) ≠ 1 / 25 := by
  refine ⟨?_, by norm_num, by norm_num⟩
  simp only [freshnessInspect, freshnessClassify, round1, round_eq]
  norm_num

/-- C4 (amended): with a positive SLA set and an available timestamp,
`inspect` returns no anomaly when `minutes_since ≤ sla`; otherwise a
`freshness_violation` anomaly is persisted and returned whose severity is
`critical` when `ratio > 5`, `high` when `2 < ratio ≤ 5`, `medium`
otherwise, with detail `{last_update, sla_minutes, minutes_overdue}`
where `minutes_overdue` is `minutes_since − sla` rounded to one decimal
place. -/
theorem C4_freshness_thresholds (table : MonitoredTable) (sla : Nat)
    (hsla : table.freshness_sla_minutes = some sla) (hpos : 0 < sla)
    (last_update now : ℚ) (aid : Nat) (db : SentinelStore) :
    ((now - last_update) / 60 ≤ (sla : ℚ) →
      freshnessInspect table (.ok (some last_update)) now aid db = (none, db))
    ∧ ((sla : ℚ) < (now - last_update) / 60 →
        5 < (now - last_update) / 60 / (sla : ℚ) →
      freshnessInspect table (.ok (some last_update)) now aid db =
        (some ⟨aid, table.id, "freshness_violation", "critical",
          .freshness last_update sla (round1 ((now - last_update) / 60 - (sla : ℚ))), now⟩,
         { db with anomalies := ⟨aid, table.id, "freshness_violation", "critical",
          .freshness last_update sla (round1 ((now - last_update) / 60 - (sla : ℚ))), now⟩
            :: db.anomalies }))
    ∧ ((sla : ℚ) < (now - last_update) / 60 →
        2 < (now - last_update) / 60 / (sla : ℚ) →
        (now - last_update) / 60 / (sla : ℚ) ≤ 5 →
      freshnessInspect table (.ok (some last_update)) now aid db =
        (some ⟨aid, table.id, "freshness_violation", "high",
          .freshness last_update sla (round1 ((now - last_update) / 60 - (sla : ℚ))), now⟩,
         { db with anomalies := ⟨aid, table.id, "freshness_violation", "high",
          .freshness last_update sla (round1 ((now - last_update) / 60 - (sla : ℚ))), now⟩
            :: db.anomalies }))
    ∧ ((sla : ℚ) < (now - last_update) / 60 →
        (now - last_update) / 60 / (sla : ℚ) ≤ 2 →
      freshnessInspect table (.ok (some last_update)) now aid db =
        (some ⟨aid, table.id, "freshness_violation", "medium",
          .freshness last_update sla (round1 ((now - last_update) / 60 - (sla : ℚ))), now⟩,
         { db with anomalies := ⟨aid, table.id, "freshness_violation", "medium",
          .freshness last_update sla (round1 ((now - last_update) / 60 - (sla : ℚ))), now⟩
            :: db.anomalies })) := by
  have hs0 : ¬ sla = 0 := by omega
  refine ⟨?_, ?_, ?_, ?_⟩
  · intro hle
    simp only [freshnessInspect, hsla]
    rw [if_neg hs0, if_pos hle]
  · intro hgt hratio
    simp only [freshnessInspect, hsla, freshnessClassify]
    rw [if_neg hs0, if_neg (not_le.mpr hgt), if_pos hratio]
  · intro hgt hratio2 hratio5
    simp only [freshnessInspect, hsla, freshnessClassify]
    rw [if_neg hs0, if_neg (not_le.mpr hgt), if_neg (not_lt.mpr hratio5), if_pos hratio2]
  · intro hgt hratio2
    simp only [freshnessInspect, hsla, freshnessClassify]
    rw [if_neg hs0, if_neg (not_le.mpr hgt),
      if_neg (not_lt.mpr (le_trans hratio2 (by norm_num))),
      if_neg (not_lt.mpr hratio2)]

/-- C4 witness: the spec's literal scenario `sla = 60`,
`last_update = now − 90 min` gives severity `medium` and
`minutes_overdue = 30`. -/
theorem C4_freshness_thresholds_witness :
    freshnessInspect ⟨1, "analytics", "orders", some 60⟩ (.ok (some 0)) 5400 7 ⟨[], []⟩ =
      (some ⟨7, 1, "freshness_violation", "medium", .freshness 0 60 30, 5400⟩,
       ⟨[], [⟨7, 1, "freshness_violation", "medium", .freshness 0 60 30, 5400⟩]⟩) := by
  have h := (C4_freshness_thresholds ⟨1, "analytics", "orders", some 60⟩ 60 rfl
      (by norm_num) 0 5400 7 ⟨[], []⟩).2.2.2 (by norm_num) (by norm_num)
  rw [h]
  norm_num [round1, round_eq]

/-- C5: the schema-drift severity rollup is the worst per-change severity
(`column_deleted`, `type_changed` ↦ critical; nullable `column_added` ↦
low; non-nullable `column_added` ↦ medium; any other change ↦ medium;
ranking low < medium < high < critical, default low); in particular any
diff containing a `column_deleted` or `type_changed` is critical. -/
theorem C5_severity_rollup :
    (∀ (n : String) (old : Column), changeSeverity (.column_deleted n old) = "critical")
    ∧ (∀ (n ot nt : String), changeSeverity (.type_changed n ot nt) = "critical")
    ∧ (∀ (n : String) (c : Column), changeSeverity (.column_added n true c) = "low")
    ∧ (∀ (n : String) (c : Column), changeSeverity (.column_added n false c) = "medium")
    ∧ (∀ k : String, changeSeverity (.otherChange k) = "medium")
    ∧ (severityRank "low" < severityRank "medium"
        ∧ severityRank "medium" < severityRank "high"
        ∧ severityRank "high" < severityRank "critical")
    ∧ (∀ (l : List SchemaChange) (c : SchemaChange), c ∈ l →
        severityRank (changeSeverity c) ≤ severityRank (classify_severity l))
    ∧ (∀ l : List SchemaChange,
        classify_severity l = "low" ∨ ∃ c ∈ l, classify_severity l = changeSeverity c)
    ∧ (∀ (l : List SchemaChange) (c : SchemaChange), c ∈ l →
        ((∃ n old, c = SchemaChange.column_deleted n old)
          ∨ (∃ n ot nt, c = SchemaChange.type_changed n ot nt)) →
        classify_severity l = "critical") := by
  refine ⟨fun n old => rfl, fun n ot nt => rfl, fun n c => rfl, fun n c => rfl,
    fun k => rfl, by decide, ?_, ?_, ?_⟩
  · intro l c hc
    exact mem_rank_le_classify_foldl l "low" c hc
  · intro l
    exact classify_foldl_eq_or l "low"
  · intro l c hc hck
    have hcrit : changeSeverity c = "critical" := by
      rcases hck with ⟨n, old, rfl⟩ | ⟨n, ot, nt, rfl⟩ <;> rfl
    have h4 : 4 ≤ severityRank (classify_severity l) := by
      have := mem_rank_le_classify_foldl l "low" c hc
      rw [hcrit] at this
      simpa [severityRank] using this
    rcases classify_foldl_eq_or l "low" with h | ⟨d, _, h⟩
    · rw [classify_severity] at h4 ⊢
      rw [h] at h4
      simp [severityRank] at h4
    · rw [classify_severity] at h4 ⊢
      rw [h] at h4 ⊢
      rcases changeSeverity_cases d with hd | hd | hd <;> rw [hd] at h4 ⊢ <;>
        simp [severityRank] at h4

/-- C1 counterexample: a first inspect stores the baseline snapshot and
returns no anomaly; on a second inspect with identical columns the latest
prior snapshot's hash equals the fetched hash, yet a second snapshot is
written (the store step precedes the comparison), leaving two snapshots
instead of the claimed single baseline. -/
theorem C1_counterexample :
    schemaInspect ⟨1, "analytics", "orders", none⟩
        (.ok [⟨"id", "INTEGER", false, 1⟩]) 0 10 ⟨[], []⟩ =
      (none, ⟨[⟨1, [⟨"id", "INTEGER", false, 1⟩], [⟨"id", "INTEGER", false, 1⟩], 0⟩], []⟩)
    ∧ Option.map SchemaSnapshot.snapshot_hash
        (List.find? (fun s => s.table_id == 1)
          [(⟨1, [⟨"id", "INTEGER", false, 1⟩], [⟨"id", "INTEGER", false, 1⟩], 0⟩ : SchemaSnapshot)]) =
        some (snapshotHash [⟨"id", "INTEGER", false, 1⟩])
    ∧ schemaInspect ⟨1, "analytics", "orders", none⟩
        (.ok [⟨"id", "INTEGER", false, 1⟩]) 60 11
        ⟨[⟨1, [⟨"id", "INTEGER", false, 1⟩], [⟨"id", "INTEGER", false, 1⟩], 0⟩], []⟩ =
      (none, ⟨[⟨1, [⟨"id", "INTEGER", false, 1⟩], [⟨"id", "INTEGER", false, 1⟩], 60⟩,
               ⟨1, [⟨"id", "INTEGER", false, 1⟩], [⟨"id", "INTEGER", false, 1⟩], 0⟩], []⟩)
    ∧ [(⟨1, [⟨"id", "INTEGER", false, 1⟩], [⟨"id", "INTEGER", false, 1⟩], 60⟩ : SchemaSnapshot),
       ⟨1, [⟨"id", "INTEGER", false, 1⟩], [⟨"id", "INTEGER", false, 1⟩], 0⟩].length = 2 :=
  ⟨rfl, rfl, rfl, rfl⟩

/-- C1 (amended): `inspect` always writes exactly one new snapshot per
successful fetch, even when the latest prior hash matches the fetched
hash; a hash match produces no anomaly, so two identical runs starting
from no prior snapshot leave two equal-hash snapshots and both return
`none` (zero anomalies). -/
theorem C1_snapshot_always_written (table : MonitoredTable) (cols : List Column)
    (t1 t2 : ℚ) (aid1 aid2 : Nat) (db : SentinelStore) :
    (∀ last, db.snapshots.find? (fun s => s.table_id == table.id) = some last →
      last.snapshot_hash = snapshotHash cols →
      schemaInspect table (.ok cols) t2 aid2 db =
        (none, { db with snapshots :=
          ⟨table.id, cols, snapshotHash cols, t2⟩ :: db.snapshots }))
    ∧ (db.snapshots.find? (fun s => s.table_id == table.id) = none →
      (schemaInspect table (.ok cols) t1 aid1 db).1 = none
      ∧ schemaInspect table (.ok cols) t2 aid2 (schemaInspect table (.ok cols) t1 aid1 db).2 =
        (none, { db with snapshots :=
          ⟨table.id, cols, snapshotHash cols, t2⟩ ::
            ⟨table.id, cols, snapshotHash cols, t1⟩ :: db.snapshots })) := by
  constructor
  · intro last hfind hhash
    simp only [schemaInspect, hfind]
    rw [if_pos hhash]
  · intro hnone
    have h1 : schemaInspect table (.ok cols) t1 aid1 db =
        (none, { db with snapshots :=
          ⟨table.id, cols, snapshotHash cols, t1⟩ :: db.snapshots }) := by
      simp only [schemaInspect, hnone]
    refine ⟨by rw [h1], ?_⟩
    rw [h1]
    simp only [schemaInspect]
    rw [List.find?_cons_of_pos _ (by simp)]
    dsimp only
    rw [if_pos rfl]

/-- C1 witness: the amended claim at concrete inputs — a matching-hash
inspect still appends a snapshot, and a double run from scratch leaves
two snapshots and no anomaly. -/
theorem C1_snapshot_always_written_witness :
    (schemaInspect ⟨1, "a", "b", none⟩ (.ok []) 5 3 ⟨[⟨1, [], [], 0⟩], []⟩ =
      (none, ⟨[⟨1, [], [], 5⟩, ⟨1, [], [], 0⟩], []⟩))
    ∧ ((schemaInspect ⟨2, "a", "b", none⟩ (.ok []) 1 3 ⟨[], []⟩).1 = none
      ∧ schemaInspect ⟨2, "a", "b", none⟩ (.ok []) 2 4
          (schemaInspect ⟨2, "a", "b", none⟩ (.ok []) 1 3 ⟨[], []⟩).2 =
        (none, ⟨[⟨2, [], [], 2⟩, ⟨2, [], [], 1⟩], []⟩)) :=
  ⟨(C1_snapshot_always_written ⟨1, "a", "b", none⟩ [] 0 5 0 3
      ⟨[⟨1, [], [], 0⟩], []⟩).1 ⟨1, [], [], 0⟩ rfl rfl,
   (C1_snapshot_always_written ⟨2, "a", "b", none⟩ [] 1 2 3 4 ⟨[], []⟩).2 rfl⟩

/-- C10: when the fetched columns differ from the latest prior snapshot
only in ways invisible to the name-keyed diff (same name sets, same type
per name — e.g. a nullable flip or a reorder) while the canonical hash
differs, `inspect` still persists and returns a `schema_drift` anomaly
whose detail is the empty change list and whose severity is the default
`"low"`. -/
theorem C10_invisible_drift_low (table : MonitoredTable) (new : List Column)
    (now : ℚ) (aid : Nat) (db : SentinelStore) (last : SchemaSnapshot)
    (hfind : db.snapshots.find? (fun s => s.table_id == table.id) = some last)
    (hnames1 : ∀ c ∈ last.columns, hasName new c.name = true)
    (hnames2 : ∀ c ∈ new, hasName last.columns c.name = true)
    (htypes : ∀ c1 ∈ last.columns, ∀ c2 ∈ new, c1.name = c2.name → c1.type = c2.type)
    (hhash : last.snapshot_hash ≠ snapshotHash new) :
    diff_schemas last.columns new = []
    ∧ schemaInspect table (.ok new) now aid db =
      (some ⟨aid, table.id, "schema_drift", "low", .schemaChanges [], now⟩,
       ⟨⟨table.id, new, snapshotHash new, now⟩ :: db.snapshots,
        ⟨aid, table.id, "schema_drift", "low", .schemaChanges [], now⟩ :: db.anomalies⟩) := by
  have hdiff : diff_schemas last.columns new = [] :=
    diff_schemas_nil last.columns new hnames1 hnames2 htypes
  refine ⟨hdiff, ?_⟩
  simp only [schemaInspect, hfind]
  rw [if_neg hhash, hdiff]
  rfl

/-- C10 witness: flipping a single column's `nullable` flag changes the
hash but not the name-keyed diff, yielding an empty-detail low-severity
drift anomaly. -/
theorem C10_invisible_drift_low_witness :
    diff_schemas [⟨"id", "INTEGER", false, 1⟩] [⟨"id", "INTEGER", true, 1⟩] = []
    ∧ schemaInspect ⟨1, "analytics", "orders", none⟩
        (.ok [⟨"id", "INTEGER", true, 1⟩]) 60 11
        ⟨[⟨1, [⟨"id", "INTEGER", false, 1⟩], [⟨"id", "INTEGER", false, 1⟩], 0⟩], []⟩ =
      (some ⟨11, 1, "schema_drift", "low", .schemaChanges [], 60⟩,
       ⟨[⟨1, [⟨"id", "INTEGER", true, 1⟩], [⟨"id", "INTEGER", true, 1⟩], 60⟩,
         ⟨1, [⟨"id", "INTEGER", false, 1⟩], [⟨"id", "INTEGER", false, 1⟩], 0⟩],
        [⟨11, 1, "schema_drift", "low", .schemaChanges [], 60⟩]⟩) :=
  C10_invisible_drift_low ⟨1, "analytics", "orders", none⟩ [⟨"id", "INTEGER", true, 1⟩]
    60 11 ⟨[⟨1, [⟨"id", "INTEGER", false, 1⟩], [⟨"id", "INTEGER", false, 1⟩], 0⟩], []⟩
    ⟨1, [⟨"id", "INTEGER", false, 1⟩], [⟨"id", "INTEGER", false, 1⟩], 0⟩
    rfl (by decide) (by decide) (by decide) (by decide)

/-- C2 counterexample: a dismissed (terminal) incident is approved — the
endpoint has no status guard — and its status changes from `"dismissed"`
to `"resolved"`, so terminal statuses are not immutable and the approve
transition is not restricted to the open set. -/
theorem C2_counterexample :
    approve_incident
        [{ id := 1, anomaly_id := 5, status := "dismissed", severity := "high",
           resolved_at := some 10, dismiss_reason := some "noise",
           created_at := 0, updated_at := 10 }] 1 20 =
      .ok ([{ id := 1, anomaly_id := 5, status := "resolved", severity := "high",
              resolved_at := some 20, resolved_by := some "api_user",
              dismiss_reason := some "noise", created_at := 0, updated_at := 10 }],
           { id := 1, anomaly_id := 5, status := "resolved", severity := "high",
             resolved_at := some 20, resolved_by := some "api_user",
             dismiss_reason := some "noise", created_at := 0, updated_at := 10 })
    ∧ ("dismissed" : String) ≠ "resolved" :=
  ⟨rfl, by decide⟩

/-- C2 (amended): `approve` sets status `"resolved"` (with `resolved_at`
and `resolved_by`) and `dismiss` sets status `"dismissed"` (with the
reason and `resolved_at`) for any existing incident regardless of its
current status — there is no open-set guard, so `resolved` and
`dismissed` can overwrite one another; neither endpoint ever produces a
status in the open set (no re-opening). -/
theorem C2_approve_dismiss_unconditional (incidents : List Incident) (iid : Nat)
    (reason : String) (now : ℚ) (inc : Incident)
    (hfind : incidents.find? (fun i => i.id == iid) = some inc) :
    approve_incident incidents iid now =
      .ok (incidents.map (fun i => if i.id == iid then
            { inc with status := "resolved", resolved_at := some now,
                       resolved_by := some "api_user" } else i),
          { inc with status := "resolved", resolved_at := some now,
                     resolved_by := some "api_user" })
    ∧ dismiss_incident incidents iid reason now =
      .ok (incidents.map (fun i => if i.id == iid then
            { inc with status := "dismissed", dismiss_reason := some reason,
                       resolved_at := some now } else i),
          { inc with status := "dismissed", dismiss_reason := some reason,
                     resolved_at := some now })
    ∧ "resolved" ∉ openSet ∧ "dismissed" ∉ openSet := by
  refine ⟨?_, ?_, by decide, by decide⟩
  · simp only [approve_incident, hfind]
  · simp only [dismiss_incident, hfind]

/-- C2 witness: the amended behaviour on a concrete dismissed incident. -/
theorem C2_approve_dismiss_unconditional_witness :
    approve_incident
        [{ id := 1, anomaly_id := 5, status := "dismissed", severity := "high",
           created_at := 0, updated_at := 10 : Incident }] 1 20 =
      .ok ([{ id := 1, anomaly_id := 5, status := "resolved", severity := "high",
              resolved_at := some 20, resolved_by := some "api_user",
              created_at := 0, updated_at := 10 }],
           { id := 1, anomaly_id := 5, status := "resolved", severity := "high",
             resolved_at := some 20, resolved_by := some "api_user",
             created_at := 0, updated_at := 10 }) :=
  (C2_approve_dismiss_unconditional
    [{ id := 1, anomaly_id := 5, status := "dismissed", severity := "high",
       created_at := 0, updated_at := 10 }] 1 "r" 20
    { id := 1, anomaly_id := 5, status := "dismissed", severity := "high",
      created_at := 0, updated_at := 10 } rfl).1

/-- C9: with no diagnosis, the generated report's `root_cause` is the
`"Analysis unavailable"` default over the table's fqn with confidence 0
and `blast_radius` is empty with `total_affected = 0`; with a diagnosis,
`total_affected` is the length of `diagnosis.blast_radius`. -/
theorem C9_report_defaults (incident : Incident) (a : Anomaly)
    (table : MonitoredTable) (remediation : Option Remediation) (now : ℚ) :
    (generate incident a table none remediation now).root_cause =
      ⟨"Analysis unavailable", table.fully_qualified_name, 0⟩
    ∧ (generate incident a table none remediation now).blast_radius = ⟨0, []⟩
    ∧ (∀ d : Diagnosis,
        (generate incident a table (some d) remediation now).blast_radius =
          ⟨d.blast_radius.length, d.blast_radius⟩) :=
  ⟨rfl, rfl, fun _ => rfl⟩

/-- C6: `extract_lineage_edges` returns the empty sequence on parse
failure (the embedding is total, so it never raises), and yields zero
edges whenever every statement of the parse result lacks a write target
— in particular `SELECT` statements and any non-`Insert`/`Create`/
`Merge` statement have no target. -/
theorem C6_parser_empty_results :
    extract_lineage_edges (.error ()) = []
    ∧ (∀ stmts : List (Option Expr),
        (∀ stmt : Expr, some stmt ∈ stmts → extract_target stmt = none) →
        extract_lineage_edges (.ok stmts) = [])
    ∧ (∀ cs : List Expr, extract_target (.node .select cs) = none)
    ∧ (∀ (k : NodeKind) (cs : List Expr),
        k ≠ .insert → k ≠ .create → k ≠ .merge →
        extract_target (.node k cs) = none) := by
  refine ⟨rfl, ?_, fun cs => rfl, ?_⟩
  · intro stmts h
    exact foldl_edgeStep_nil stmts h []
  · intro k cs h1 h2 h3
    cases k <;> first | rfl | exact absurd rfl h1 | exact absurd rfl h2 | exact absurd rfl h3

/-- C6 witness: a parse failure and a SELECT-only statement both produce
zero edges. -/
theorem C6_parser_empty_results_witness :
    extract_lineage_edges (.error ()) = []
    ∧ extract_lineage_edges
        (.ok [some (.node .select [.node (.table "" "" "users") []]), none]) = [] :=
  ⟨C6_parser_empty_results.1,
   C6_parser_empty_results.2.1
    [some (.node .select [.node (.table "" "" "users") []]), none]
    (by
      intro stmt h
      rcases List.mem_cons.mp h with h1 | h1
      · rw [Option.some.injEq] at h1
        rw [h1]
        exact C6_parser_empty_results.2.2.1 _
      · rcases List.mem_cons.mp h1 with h2 | h2
        · exact absurd h2 (by simp)
        · simp at h2)⟩

/-- C7: for a write statement (`Insert`/`Create`/`Merge`) whose table
references all sit directly under the statement (subquery depth 0, first
table `T`), the extracted edges are exactly one edge per distinct
non-target source, in walk order, each to the single target `T` with
confidence 1.0. -/
theorem C7_parser_multi_source (k : NodeKind) (cs : List Expr)
    (hk : k = NodeKind.insert ∨ k = NodeKind.create ∨ k = NodeKind.merge)
    (T : String) (rest : List (String × Nat))
    (htab : bfsTables [(Expr.node k cs, 0)] = (T, 0) :: rest)
    (hdepth : ∀ p ∈ rest, p.2 = 0) :
    extract_target (Expr.node k cs) = some T
    ∧ extract_lineage_edges (.ok [some (Expr.node k cs)]) =
        (firstDedup ((rest.map Prod.fst).filter (fun s => s ≠ T))).map
          (fun s => ParsedEdge.mk s T 1) := by
  have htarget : extract_target (Expr.node k cs) = some T := by
    rcases hk with rfl | rfl | rfl <;> simp [extract_target, htab]
  refine ⟨htarget, ?_⟩
  have hd0 : ∀ p ∈ bfsTables [(Expr.node k cs, 0)], p.2 = 0 := by
    rw [htab]
    intro p hp
    rcases List.mem_cons.mp hp with rfl | hp
    · rfl
    · exact hdepth p hp
  have hsrc := extract_sources_all_direct (Expr.node k cs) T hd0
  show List.foldl edgeStep [] [some (Expr.node k cs)] = _
  rw [List.foldl_cons]
  simp only [edgeStep, htarget, List.foldl_nil, List.nil_append]
  rw [hsrc, htab]
  rw [List.map_map, List.map_cons]
  rw [List.filter_cons]
  rw [if_neg (by simp)]
  rfl

/-- C7 witness: `INSERT INTO analytics.combined SELECT … FROM orders o
JOIN customers c ON …` produces exactly the edges
`(orders, analytics.combined, 1.0)` and `(customers, analytics.combined,
1.0)`. -/
theorem C7_parser_multi_source_witness :
    extract_lineage_edges (.ok [some (Expr.node .insert
      [Expr.node (.table "" "analytics" "combined") [],
       Expr.node .select
        [Expr.node (.plain "From") [Expr.node (.table "" "" "orders") []],
         Expr.node (.plain "Join") [Expr.node (.table "" "" "customers") []]]])]) =
      [⟨"orders", "analytics.combined", 1⟩, ⟨"customers", "analytics.combined", 1⟩] := by
  have h := C7_parser_multi_source .insert
    [Expr.node (.table "" "analytics" "combined") [],
     Expr.node .select
      [Expr.node (.plain "From") [Expr.node (.table "" "" "orders") []],
       Expr.node (.plain "Join") [Expr.node (.table "" "" "customers") []]]]
    (Or.inl rfl) "analytics.combined" [("orders", 0), ("customers", 0)]
    (by simp [bfsTables, tableEntry, isSubquery, table_name]; exact ⟨rfl, rfl, rfl⟩)
    (by decide)
  rw [h.2]
  rfl

/-- C3: assuming the store satisfies the dedupe invariant (at most one
open-set incident per `(table_id, type)`), with unique incident primary
keys and the handled anomaly present in the store, `handle_anomaly`
preserves the invariant; when an open incident for the key exists the
anomaly is merged — no incident is added, the incident's severity is
never lowered online and is escalated exactly when the new anomaly's
severity rank exceeds the incident's. -/
theorem C3_orchestrator_dedupe (arch : Anomaly → Option Diagnosis)
    (execu : Anomaly → Diagnosis → Option Remediation)
    (a : Anomaly) (newId : Nat) (now : ℚ) (st : OrchStore)
    (hself : st.anomalies.find? (fun x => x.id == a.id) = some a)
    (hids : (st.incidents.map Incident.id).Nodup)
    (hinv : ∀ tid atype, (openIncidentsFor st tid atype).length ≤ 1) :
    (∀ tid atype,
      (openIncidentsFor (handle_anomaly arch execu a newId now st).2 tid atype).length ≤ 1)
    ∧ (∀ inc, find_open_incident st a.table_id a.type = some inc →
        (handle_anomaly arch execu a newId now st).2.incidents.length = st.incidents.length
        ∧ (handle_anomaly arch execu a newId now st).1 =
            { inc with
              severity := if severityRank a.severity > severityRank inc.severity
                          then a.severity else inc.severity,
              updated_at := now }
        ∧ severityRank inc.severity
            ≤ severityRank (handle_anomaly arch execu a newId now st).1.severity
        ∧ (severityRank inc.severity
              < severityRank (handle_anomaly arch execu a newId now st).1.severity
            ↔ severityRank inc.severity < severityRank a.severity)) := by
  cases hfind : find_open_incident st a.table_id a.type with
  | none =>
    obtain ⟨inc5, heq, hstat, hanom, hid⟩ :=
      handle_anomaly_create arch execu a newId now st hfind
    constructor
    · intro tid atype
      rw [heq]
      show (List.filter (incidentMatches st tid atype) (inc5 :: st.incidents)).length ≤ 1
      rw [List.filter_cons]
      have hp5 : incidentMatches st tid atype inc5 = (a.table_id == tid && a.type == atype) := by
        unfold incidentMatches anomalyOf
        rw [hstat, hanom, hself]
        simp [openSet]
      by_cases hkey : (a.table_id == tid && a.type == atype) = true
      · rw [hp5, if_pos hkey]
        have h0 : List.filter (incidentMatches st tid atype) st.incidents = [] := by
          rw [List.filter_eq_nil_iff]
          intro inc hmem
          have hkey' : a.table_id = tid ∧ a.type = atype := by simpa using hkey
          rw [← hkey'.1, ← hkey'.2]
          exact List.find?_eq_none.mp hfind inc hmem
        rw [h0]
        simp
      · rw [hp5, if_neg hkey]
        exact hinv tid atype
    · intro inc h
      exact Option.noConfusion h
  | some inc0 =>
    have hh : handle_anomaly arch execu a newId now st = merge_anomaly st inc0 a now := by
      unfold handle_anomaly
      rw [hfind]
    have hmem0 : inc0 ∈ st.incidents := List.mem_of_find?_eq_some hfind
    constructor
    · intro tid atype
      rw [hh]
      unfold merge_anomaly
      dsimp only
      show (List.filter (incidentMatches st tid atype)
        (st.incidents.map (fun i => if i.id == inc0.id
          then { inc0 with
                 severity := if severityRank a.severity > severityRank inc0.severity
                             then a.severity else inc0.severity,
                 updated_at := now }
          else i))).length ≤ 1
      rw [List.filter_map, List.length_map]
      rw [List.filter_congr ?_]
      · exact hinv tid atype
      · intro i hi
        by_cases hii : (i.id == inc0.id) = true
        · have hei : i = inc0 :=
            List.inj_on_of_nodup_map hids hi hmem0 (by simpa using hii)
          simp only [Function.comp_apply, if_pos hii]
          rw [hei]
          rfl
        · simp only [Function.comp_apply, if_neg hii]
    · intro inc h
      injection h with h
      subst h
      rw [hh]
      unfold merge_anomaly
      dsimp only
      refine ⟨List.length_map _ _, rfl, ?_, ?_⟩
      · by_cases hr : severityRank a.severity > severityRank inc0.severity
        · rw [if_pos hr]
          exact le_of_lt hr
        · rw [if_neg hr]
      · by_cases hr : severityRank a.severity > severityRank inc0.severity
        · rw [if_pos hr]
        · rw [if_neg hr]
          constructor <;> intro hlt <;> omega


/-- C3 witness: a second, critical `schema_drift` anomaly on the same
table merges into the existing investigating incident — the incident
count stays 1 and the severity escalates to critical. -/
theorem C3_orchestrator_dedupe_witness :
    (handle_anomaly (fun _ => none) (fun _ _ => none)
        ⟨2, 1, "schema_drift", "critical", .schemaChanges [], 5⟩ 99 7
        ⟨[], [⟨2, 1, "schema_drift", "critical", .schemaChanges [], 5⟩,
              ⟨1, 1, "schema_drift", "medium", .schemaChanges [], 0⟩],
         [{ id := 10, anomaly_id := 1, status := "investigating", severity := "medium",
            created_at := 0, updated_at := 0 }]⟩).2.incidents.length = 1
    ∧ (handle_anomaly (fun _ => none) (fun _ _ => none)
        ⟨2, 1, "schema_drift", "critical", .schemaChanges [], 5⟩ 99 7
        ⟨[], [⟨2, 1, "schema_drift", "critical", .schemaChanges [], 5⟩,
              ⟨1, 1, "schema_drift", "medium", .schemaChanges [], 0⟩],
         [{ id := 10, anomaly_id := 1, status := "investigating", severity := "medium",
            created_at := 0, updated_at := 0 }]⟩).1.severity = "critical" := by
  have h := (C3_orchestrator_dedupe (fun _ => none) (fun _ _ => none)
      ⟨2, 1, "schema_drift", "critical", .schemaChanges [], 5⟩ 99 7
      ⟨[], [⟨2, 1, "schema_drift", "critical", .schemaChanges [], 5⟩,
            ⟨1, 1, "schema_drift", "medium", .schemaChanges [], 0⟩],
       [{ id := 10, anomaly_id := 1, status := "investigating", severity := "medium",
          created_at := 0, updated_at := 0 }]⟩ rfl (by decide)
      (fun tid atype => List.length_filter_le _ _)).2
      { id := 10, anomaly_id := 1, status := "investigating", severity := "medium",
        created_at := 0, updated_at := 0 } rfl
  refine ⟨h.1, ?_⟩
  rw [h.2.1]
  rfl

/-- C8: for every start table, depth bound and direction, the traversal
returns each node at most once (and never the start), every returned node
is reachable from the start within its recorded depth (which lies in
`[1, depth]`) over the recency-filtered edge set, the confidence attached
to a node is that of a filtered edge into it, the result is in BFS order
(depths non-decreasing), and first-visit wins: each returned node was
reached from the start or from a node emitted strictly earlier at the
previous depth, and its confidence is that of the *first* edge of that
parent's filtered edge query that reaches it (later edges to an
already-visited node are skipped, never overwriting the confidence). -/
theorem C8_lineage_bfs_invariants (edges : List LineageEdge) (cutoff : ℚ)
    (dir : Direction) (start : String) (depth : Nat) :
    ((lineage_bfs edges cutoff dir start depth).map BfsNode.table).Nodup
    ∧ (∀ t ∈ (lineage_bfs edges cutoff dir start depth).map BfsNode.table, t ≠ start)
    ∧ (∀ n ∈ lineage_bfs edges cutoff dir start depth,
        (1 ≤ n.depth ∧ n.depth ≤ depth)
        ∧ reachBool edges cutoff dir start n.depth n.table = true
        ∧ ∃ e ∈ edges, cutoff ≤ e.last_seen_at ∧ neighborOf dir e = n.table
            ∧ e.confidence = n.confidence)
    ∧ ((lineage_bfs edges cutoff dir start depth).map BfsNode.depth).Sorted (· ≤ ·)
    ∧ (∀ (pre : List BfsNode) (n : BfsNode) (post : List BfsNode),
        lineage_bfs edges cutoff dir start depth = pre ++ n :: post →
        ∃ u : String,
          ((u = start ∧ n.depth = 1) ∨ ∃ m ∈ pre, m.table = u ∧ m.depth + 1 = n.depth)
          ∧ ∃ e, (edgeQuery edges cutoff dir u).find?
                (fun e2 => neighborOf dir e2 == n.table) = some e
              ∧ e.confidence = n.confidence) := by
  unfold lineage_bfs
  refine ⟨(bfsLoop_nodup edges cutoff dir depth [(start, 0)] [start]).1, ?_, ?_, ?_, ?_⟩
  · intro t ht heq
    have := (bfsLoop_nodup edges cutoff dir depth [(start, 0)] [start]).2 t ht
    rw [heq] at this
    exact this (List.mem_singleton.mpr rfl)
  · intro n hn
    refine bfsLoop_sound edges cutoff dir depth start [(start, 0)] [start] ?_ n hn
    intro p hp
    rcases List.mem_singleton.mp hp with rfl
    simp [reachBool]
  · exact (bfsLoop_depth_mono edges cutoff dir depth [(start, 0)] [start]
      (by simp) (by intro p hp q hq; rcases List.mem_singleton.mp hp with rfl; simp)).1
  · intro pre n post hsplit
    have h := bfsLoop_first_visit edges cutoff dir depth start [(start, 0)] [start] []
      (by intro p hp; rcases List.mem_singleton.mp hp with rfl; exact Or.inl ⟨rfl, rfl⟩)
      pre n post hsplit
    rcases h with ⟨u, hu, he⟩
    refine ⟨u, ?_, he⟩
    rcases hu with h | ⟨m, hm, h1, h2⟩
    · exact Or.inl h
    · rw [List.nil_append] at hm
      exact Or.inr ⟨m, hm, h1, h2⟩

/-- C5 witness: a diff with a nullable added column and a type change is
critical. -/
theorem C5_severity_rollup_witness :
    classify_severity [.column_added "description" true ⟨"description", "TEXT", true, 4⟩,
      .type_changed "price" "FLOAT" "VARCHAR"] = "critical" := by
  exact C5_severity_rollup.2.2.2.2.2.2.2.2
    [.column_added "description" true ⟨"description", "TEXT", true, 4⟩,
      .type_changed "price" "FLOAT" "VARCHAR"]
    (.type_changed "price" "FLOAT" "VARCHAR") (by decide)
    (Or.inr ⟨"price", "FLOAT", "VARCHAR", rfl⟩)

end Aegis
